import Mathlib

/-!
Verification development for the Markdown→PDF batch converter
(`Convert-md/convert-md.py`).  Python strings are modelled as `List Char`
(Python strings are sequences of code points), the filesystem as the set of
resolved paths of existing regular files, and the two external processes
(pandoc, wkhtmltopdf) as boolean outcome oracles.  Path resolution is
modelled with POSIX `pathlib` semantics (the cwd taken to be the
filesystem root, symlinks ignored).
-/

namespace ConvertMD

/-- Python strings are sequences of code points. -/
abbrev PyStr := List Char

/-- The single-quote character, `'`. -/
def squote : Char := Char.ofNat 39

/-- The double-quote character, `"`. -/
def dquote : Char := Char.ofNat 34

/-- ASCII whitespace as recognised by Python `str.strip` / `str.split` /
regex `\s` (space, tab, newline, carriage return, vertical tab, form feed). -/
def isSpaceChar (c : Char) : Bool :=
  c = ' ' || c = Char.ofNat 9 || c = Char.ofNat 10 || c = Char.ofNat 13 ||
  c = Char.ofNat 11 || c = Char.ofNat 12

/-- Regex word character (`\w` over ASCII): letters, digits, underscore. -/
def isWordChar (c : Char) : Bool := c.isAlphanum || c = Char.ofNat 95

/-- Python `str.strip()` (restricted to ASCII whitespace). -/
def pyStrip (s : PyStr) : PyStr :=
  ((s.dropWhile isSpaceChar).reverse.dropWhile isSpaceChar).reverse

/-- Python `str.lstrip("/")`: drop all leading slashes. -/
def pyLstripSlashes (s : PyStr) : PyStr := s.dropWhile (· = '/')

/-- Python `str.split(sep)` for a single-character separator: split at every
occurrence, keeping empty pieces.  The result is always non-empty. -/
def splitOnChar (sep : Char) : PyStr → List PyStr
  | [] => [[]]
  | c :: rest =>
    if c = sep then [] :: splitOnChar sep rest
    else
      match splitOnChar sep rest with
      | h :: t => (c :: h) :: t
      | [] => [[c]]

/-- Python `sep.join(parts)`. -/
def joinWith (sep : PyStr) : List PyStr → PyStr
  | [] => []
  | [x] => x
  | x :: y :: ys => x ++ sep ++ joinWith sep (y :: ys)

/-- Helper for Python `str.split()` (split on whitespace runs, no empties):
`acc` is the current word collected in reverse. -/
def pySplitWsAux (acc : PyStr) : PyStr → List PyStr
  | [] => if acc = [] then [] else [acc.reverse]
  | c :: rest =>
    if isSpaceChar c then
      if acc = [] then pySplitWsAux [] rest
      else acc.reverse :: pySplitWsAux [] rest
    else pySplitWsAux (c :: acc) rest

/-- Python `str.split()`: split on whitespace runs, discarding empties. -/
def pySplitWs (s : PyStr) : List PyStr := pySplitWsAux [] s

/-- Fuel-driven body of Python `str.replace(pat, rep)`: replace every
non-overlapping occurrence of `pat`, scanning left to right.  The fuel is
an upper bound on the number of scanning steps; `pyReplace` supplies
`s.length`, which is always sufficient because every step consumes at
least one character of `s`.  (The patterns used in the program are never
empty; an empty `pat` is treated as matching nowhere.) -/
def pyReplaceF : Nat → PyStr → PyStr → PyStr → PyStr
  | 0, s, _, _ => s
  | _ + 1, [], _, _ => []
  | f + 1, c :: rest, pat, rep =>
    if pat ≠ [] ∧ pat.isPrefixOf (c :: rest) then
      rep ++ pyReplaceF f ((c :: rest).drop pat.length) pat rep
    else
      c :: pyReplaceF f rest pat rep

/-- Python `str.replace(pat, rep)` (for non-empty `pat`). -/
def pyReplace (s pat rep : PyStr) : PyStr := pyReplaceF s.length s pat rep

/-- Boolean substring test: Python `pat in s`. -/
def containsSub (s pat : PyStr) : Bool := s.tails.any pat.isPrefixOf

/-! ### UTF-8 encoding and decoding

`decodeUtf8Replace` models Python `bytes.decode("utf-8", errors="replace")`,
which never raises: each maximal subpart of an ill-formed sequence becomes
one U+FFFD replacement character.  `utf8EncodeChar` is the standard UTF-8
encoder, used to model percent-encoding in `Path.as_uri`. -/

/-- The U+FFFD replacement character. -/
def replChar : Char := Char.ofNat 0xFFFD

/-- A UTF-8 continuation byte (0x80–0xBF). -/
def isCont (b : Nat) : Bool := 0x80 ≤ b && b ≤ 0xBF

/-- Decode a byte list as UTF-8 with `errors="replace"` semantics. -/
def decodeUtf8Replace : List Nat → List Char
  | [] => []
  | b :: rest =>
    if b < 0x80 then Char.ofNat b :: decodeUtf8Replace rest
    else if 0xC2 ≤ b && b ≤ 0xDF then
      match rest with
      | [] => [replChar]
      | c1 :: rest1 =>
        if isCont c1 then
          Char.ofNat ((b - 0xC0) * 0x40 + (c1 - 0x80)) :: decodeUtf8Replace rest1
        else replChar :: decodeUtf8Replace (c1 :: rest1)
    else if 0xE0 ≤ b && b ≤ 0xEF then
      match rest with
      | [] => [replChar]
      | c1 :: rest1 =>
        if (if b = 0xE0 then 0xA0 ≤ c1 && c1 ≤ 0xBF
            else if b = 0xED then 0x80 ≤ c1 && c1 ≤ 0x9F
            else isCont c1) then
          match rest1 with
          | [] => [replChar]
          | c2 :: rest2 =>
            if isCont c2 then
              Char.ofNat ((b - 0xE0) * 0x1000 + (c1 - 0x80) * 0x40 + (c2 - 0x80))
                :: decodeUtf8Replace rest2
            else replChar :: decodeUtf8Replace (c2 :: rest2)
        else replChar :: decodeUtf8Replace (c1 :: rest1)
    else if 0xF0 ≤ b && b ≤ 0xF4 then
      match rest with
      | [] => [replChar]
      | c1 :: rest1 =>
        if (if b = 0xF0 then 0x90 ≤ c1 && c1 ≤ 0xBF
            else if b = 0xF4 then 0x80 ≤ c1 && c1 ≤ 0x8F
            else isCont c1) then
          match rest1 with
          | [] => [replChar]
          | c2 :: rest2 =>
            if isCont c2 then
              match rest2 with
              | [] => [replChar]
              | c3 :: rest3 =>
                if isCont c3 then
                  Char.ofNat ((b - 0xF0) * 0x40000 + (c1 - 0x80) * 0x1000 +
                      (c2 - 0x80) * 0x40 + (c3 - 0x80)) :: decodeUtf8Replace rest3
                else replChar :: decodeUtf8Replace (c3 :: rest3)
            else replChar :: decodeUtf8Replace (c2 :: rest2)
        else replChar :: decodeUtf8Replace (c1 :: rest1)
    else replChar :: decodeUtf8Replace rest

/-- UTF-8 encode one code point. -/
def utf8EncodeChar (c : Char) : List Nat :=
  let n := c.toNat
  if n < 0x80 then [n]
  else if n < 0x800 then [0xC0 + n / 0x40, 0x80 + n % 0x40]
  else if n < 0x10000 then
    [0xE0 + n / 0x1000, 0x80 + (n / 0x40) % 0x40, 0x80 + n % 0x40]
  else
    [0xF0 + n / 0x40000, 0x80 + (n / 0x1000) % 0x40, 0x80 + (n / 0x40) % 0x40,
     0x80 + n % 0x40]

/-- UTF-8 encode a string to bytes. -/
def utf8Bytes (s : PyStr) : List Nat := s.flatMap utf8EncodeChar

/-- Numeric value of a hex digit, if any (Python `unquote` accepts both
cases). -/
def hexVal (c : Char) : Option Nat :=
  if '0' ≤ c ∧ c ≤ '9' then some (c.toNat - '0'.toNat)
  else if 'a' ≤ c ∧ c ≤ 'f' then some (c.toNat - 'a'.toNat + 10)
  else if 'A' ≤ c ∧ c ≤ 'F' then some (c.toNat - 'A'.toNat + 10)
  else none

/-- Uppercase hex digit for percent-encoding. -/
def hexDigit (n : Nat) : Char :=
  if n < 10 then Char.ofNat ('0'.toNat + n) else Char.ofNat ('A'.toNat + n - 10)

/-- First pass of `urllib.parse.unquote`: a `%XY` with two hex digits
becomes a byte token, any other character stays a char token. -/
def pctTokens : PyStr → List (Sum Char Nat)
  | [] => []
  | '%' :: h1 :: h2 :: rest =>
    match hexVal h1, hexVal h2 with
    | some a, some b => Sum.inr (a * 16 + b) :: pctTokens rest
    | _, _ => Sum.inl '%' :: pctTokens (h1 :: h2 :: rest)
  | c :: rest => Sum.inl c :: pctTokens rest

/-- Second pass of `urllib.parse.unquote`: maximal runs of byte tokens are
decoded as UTF-8 (`errors="replace"`); `acc` is the current run in
reverse. -/
def pctDecodeRuns (acc : List Nat) : List (Sum Char Nat) → List Char
  | [] => decodeUtf8Replace acc.reverse
  | Sum.inr b :: rest => pctDecodeRuns (b :: acc) rest
  | Sum.inl c :: rest => decodeUtf8Replace acc.reverse ++ c :: pctDecodeRuns [] rest

/-- Python `urllib.parse.unquote` (UTF-8, `errors="replace"`). -/
def pyUnquote (s : PyStr) : PyStr := pctDecodeRuns [] (pctTokens s)

/-! ### `urllib.parse.urlsplit` — path extraction

`normalize_local_path` only uses `urlsplit(u).path`; the model below
follows CPython's `urlsplit`: remove the unsafe bytes tab/CR/LF, strip a
valid `scheme:` prefix, strip a `//netloc`, then cut at the first `#`
(fragment) and the first `?` (query).  (`urlsplit` raising — only possible
through `_checknetloc` on exotic non-ASCII netlocs — is not modelled; the
source catches that exception and keeps the string as-is.) -/

/-- CPython scheme characters: letters, digits, `+`, `-`, `.`. -/
def isSchemeChar (c : Char) : Bool := c.isAlphanum || c = '+' || c = '-' || c = '.'

/-- Strip a leading `scheme:` if the part before the first `:` is a valid
scheme (first char an ASCII letter, the rest scheme characters, at least
one char). -/
def schemeStrip (s : PyStr) : PyStr :=
  match s.findIdx? (· = ':') with
  | none => s
  | some i =>
    if 0 < i ∧ (s.headD ' ').isAlpha ∧ ((s.take i).drop 1).all isSchemeChar then
      s.drop (i + 1)
    else s

/-- Strip a leading `//netloc`: drop the two slashes and everything up to
the next `/`, `?` or `#`. -/
def netlocStrip (s : PyStr) : PyStr :=
  (s.drop 2).dropWhile (fun c => c ≠ '/' ∧ c ≠ '?' ∧ c ≠ '#')

/-- Cut the string at the first occurrence of `stop`. -/
def takeUntilChar (stop : Char) (s : PyStr) : PyStr := s.takeWhile (· ≠ stop)

/-- `urllib.parse.urlsplit(u).path`. -/
def urlsplitPath (s : PyStr) : PyStr :=
  let s := s.filter (fun c => c ≠ Char.ofNat 9 ∧ c ≠ Char.ofNat 13 ∧ c ≠ Char.ofNat 10)
  let s := schemeStrip s
  let s := if ['/', '/'].isPrefixOf s then netlocStrip s else s
  takeUntilChar '?' (takeUntilChar '#' s)

/-! ### Filesystem and path resolution -/

/-- The filesystem: the set of resolved absolute paths of existing regular
files. -/
structure FS where
  files : List PyStr
deriving DecidableEq

/-- `Path.is_file()` on a resolved path. -/
def FS.isFile (fs : FS) (p : PyStr) : Bool := fs.files.contains p

/-- Process `.`/`..`/empty segments of a path, POSIX-style (`acc` holds the
resolved segments in reverse). -/
def resolveParts (acc : List PyStr) : List PyStr → List PyStr
  | [] => acc.reverse
  | seg :: rest =>
    if seg = [] ∨ seg = ['.'] then resolveParts acc rest
    else if seg = ['.', '.'] then resolveParts (acc.drop 1) rest
    else resolveParts (seg :: acc) rest

/-- `Path(p).resolve()` as a pure path normalisation (POSIX, cwd = `/`,
symlinks ignored): the canonical absolute form of `p`. -/
def resolvePath (p : PyStr) : PyStr :=
  '/' :: joinWith ['/'] (resolveParts [] (splitOnChar '/' p))

/-- `base_dir / u` (POSIX `pathlib`): an absolute `u` replaces the base. -/
def pathJoin (base u : PyStr) : PyStr :=
  if ['/'].isPrefixOf u then u else base ++ '/' :: u

/-! ### `Path.as_uri` -/

/-- Characters that `urllib.parse.quote(..., safe="/")` leaves unescaped:
ASCII alphanumerics, `_`, `.`, `-`, `~` and the safe `/`. -/
def isQuoteSafe (c : Char) : Bool :=
  c.isAlphanum || c = Char.ofNat 95 || c = '.' || c = '-' || c = '~' || c = '/'

/-- Percent-encode one byte unless it is a safe ASCII character. -/
def pquoteByte (b : Nat) : PyStr :=
  if b < 0x80 && isQuoteSafe (Char.ofNat b) then [Char.ofNat b]
  else '%' :: hexDigit (b / 16) :: [hexDigit (b % 16)]

/-- `urllib.parse.quote(s, safe="/")` (UTF-8 percent-encoding). -/
def pquote (s : PyStr) : PyStr := (utf8Bytes s).flatMap pquoteByte

/-- `PurePosixPath(p).as_uri()` for an absolute path `p`. -/
def as_uri (p : PyStr) : PyStr := 'f' :: 'i' :: 'l' :: 'e' :: ':' :: '/' :: '/' :: pquote p

/-! ### The Path/URL Normalizer
(`should_keep`, `normalize_local_path`, `to_uri_if_exists` inside
`rewrite_local_urls_to_file_uri`) -/

/-- String literal helper: `startswith`. -/
def startsWithStr (pre : String) (s : PyStr) : Bool := pre.data.isPrefixOf s

/-- `should_keep(url)`: references that are kept untouched. -/
def should_keep (url : PyStr) : Bool :=
  let u := pyStrip url
  u = [] || startsWithStr "#" u || startsWithStr "http://" u ||
    startsWithStr "https://" u || startsWithStr "data:" u ||
    startsWithStr "mailto:" u || startsWithStr "file://" u

/-- `normalize_local_path(url)`: strip, take the urlsplit path, percent-
decode, normalise backslashes to forward slashes. -/
def normalize_local_path (url : PyStr) : PyStr :=
  let u := pyStrip url
  let u := urlsplitPath u
  let u := pyUnquote u
  u.map (fun c => if c = '\\' then '/' else c)

/-- The drive-letter pattern `re.match(r"^[a-zA-Z]:/", u)`. -/
def driveMatch : PyStr → Bool
  | c :: ':' :: '/' :: _ => c.isAlpha
  | _ => false

/-- `to_uri_if_exists(url)`: the per-reference normalisation. -/
def to_uri_if_exists (fs : FS) (base url : PyStr) : PyStr :=
  if should_keep url then url
  else
    let u := normalize_local_path url
    if driveMatch u then as_uri (resolvePath u)
    else
      let candidate := resolvePath (pathJoin base u)
      if fs.isFile candidate then as_uri candidate
      else if ['/'].isPrefixOf u then
        let candidate2 := resolvePath (pathJoin base (pyLstripSlashes u))
        if fs.isFile candidate2 then as_uri candidate2 else url
      else url

/-! ### The HTML Rewriter
(`rewrite_local_urls_to_file_uri`): a faithful scanner for the two regex
substitutions.  Pattern 1: `(\b(?:src|href)=)("|')(.*?)(\2)` (ignore case);
pattern 2: the same with `srcset`.  `.` does not match a newline, `\b`
before the first letter holds iff the previous character is not a word
character, and the lazy `(.*?)(\2)` matches up to the first closing quote.
The scanners are fuel-driven (each step consumes at least one character,
so fuel `s.length` is sufficient). -/

/-- Match `tok` case-insensitively as a prefix of `s`; return the consumed
original characters and the rest. -/
def matchTokenCI (tok : PyStr) (s : PyStr) : Option (PyStr × PyStr) :=
  match tok, s with
  | [], rest => some ([], rest)
  | _ :: _, [] => none
  | t :: ts, c :: cs =>
    if c.toLower = t.toLower then
      match matchTokenCI ts cs with
      | some (pre, rest) => some (c :: pre, rest)
      | none => none
    else none

/-- Find the first closing quote `q` not preceded by a newline; return the
value before it and the rest after it. -/
def findCloseQuote (q : Char) : PyStr → Option (PyStr × PyStr)
  | [] => none
  | c :: rest =>
    if c = q then some ([], rest)
    else if c = Char.ofNat 10 then none
    else
      match findCloseQuote q rest with
      | some (v, r) => some (c :: v, r)
      | none => none

/-- Try to match `name=` + quote + value + quote at the start of `s`,
where `name` is one of `names` (case-insensitive).  Returns the consumed
`name=` text, the quote, the value and the rest. -/
def tryAttrMatch (names : List PyStr) (s : PyStr) : Option (PyStr × Char × PyStr × PyStr) :=
  match names with
  | [] => none
  | n :: ns =>
    match matchTokenCI (n ++ ['=']) s with
    | some (pre, q :: rest) =>
      if q = dquote ∨ q = squote then
        match findCloseQuote q rest with
        | some (v, rest2) => some (pre, q, v, rest2)
        | none => tryAttrMatch ns s
      else tryAttrMatch ns s
    | _ => tryAttrMatch ns s

/-- Generic fuel-driven regex-substitution scanner: at every position with
a word boundary, try an attribute match and rewrite its value with `f`;
otherwise advance one character.  `prevNW` records whether the previous
character was a non-word character (word boundary). -/
def scanAttrsF (names : List PyStr) (f : PyStr → PyStr) :
    Nat → Bool → PyStr → PyStr
  | 0, _, s => s
  | _ + 1, _, [] => []
  | fuel + 1, prevNW, c :: rest =>
    match (if prevNW then tryAttrMatch names (c :: rest) else none) with
    | some (pre, q, v, rest2) =>
      pre ++ q :: f v ++ q :: scanAttrsF names f fuel true rest2
    | none => c :: scanAttrsF names f fuel (!isWordChar c) rest

/-- The loop body of `replace_srcset`: strip the item, skip it when empty,
split it on whitespace, rewrite the first token with `to_uri_if_exists`,
rejoin the descriptor tokens with single spaces.  (The `[]` token arm is
unreachable: a non-empty stripped item always has at least one token.) -/
def srcsetItem (fs : FS) (base : PyStr) (item : PyStr) : Option PyStr :=
  let item := pyStrip item
  if item = [] then none
  else
    match pySplitWs item with
    | [] => none
    | url :: restT =>
      let rest := joinWith [' '] restT
      let newUrl := to_uri_if_exists fs base url
      some (pyStrip (newUrl ++ (if rest ≠ [] then ' ' :: rest else [])))

/-- The `srcset` value transform of `replace_srcset`: split on commas,
process each item with `srcsetItem`, rejoin with `", "`. -/
def srcsetNewValue (fs : FS) (base : PyStr) (value : PyStr) : PyStr :=
  joinWith [',', ' '] ((splitOnChar ',' value).filterMap (srcsetItem fs base))

/-- The entries of a `srcset` value: split on commas, strip each item,
drop empty items (the url-plus-descriptor units the rewriter works on). -/
def entriesOf (v : PyStr) : List PyStr :=
  ((splitOnChar ',' v).map pyStrip).filter (· ≠ [])

/-- The expected rewritten form of one `srcset` entry: the URL token
normalised, the descriptor tokens kept verbatim, rejoined with single
spaces. -/
def rewrittenEntry (fs : FS) (base e : PyStr) : PyStr :=
  joinWith [' '] (to_uri_if_exists fs base ((pySplitWs e).headD []) :: (pySplitWs e).tail)

/-- `rewrite_local_urls_to_file_uri(html, base_dir)`: the `src`/`href`
substitution followed by the `srcset` substitution. -/
def rewrite_local_urls_to_file_uri (fs : FS) (base html : PyStr) : PyStr :=
  let h1 := scanAttrsF ["src".data, "href".data] (to_uri_if_exists fs base)
      html.length true html
  scanAttrsF ["srcset".data] (srcsetNewValue fs base) h1.length true h1

/-! ### The Image Transcoder (`convert_webp_images_in_html`) -/

/-- Characters allowed inside a `file:///…` match: the regex class
`[^"'\s>]`. -/
def isWebpUriChar (c : Char) : Bool :=
  !(c = dquote || c = squote || isSpaceChar c || c = '>')

/-- After the `file:///` prefix, lazily consume at least one allowed
character until the literal `.webp` (case-insensitive): return the
consumed characters (including the extension) and the rest. -/
def lazyWebpTail : PyStr → Option (PyStr × PyStr)
  | [] => none
  | c :: rest =>
    if !isWebpUriChar c then none
    else
      match matchTokenCI ".webp".data rest with
      | some (ext, rest2) => some (c :: ext, rest2)
      | none =>
        match lazyWebpTail rest with
        | some (v, r) => some (c :: v, r)
        | none => none

/-- Fuel-driven `re.findall` for `file:///[^"'\s>]+?\.webp` (ignore
case). -/
def findWebpMatchesF : Nat → PyStr → List PyStr
  | 0, _ => []
  | _ + 1, [] => []
  | fuel + 1, c :: rest =>
    match matchTokenCI "file:///".data (c :: rest) with
    | some (pre, rest1) =>
      match lazyWebpTail rest1 with
      | some (v, rest2) => (pre ++ v) :: findWebpMatchesF fuel rest2
      | none => findWebpMatchesF fuel rest
    | none => findWebpMatchesF fuel rest

/-- All regex matches of the webp pattern in `html`. -/
def findWebpMatches (html : PyStr) : List PyStr := findWebpMatchesF html.length html

/-- `list(dict.fromkeys(l))`: deduplicate keeping first occurrences. -/
def dedupeKeepFirst (seen : List PyStr) : List PyStr → List PyStr
  | [] => []
  | x :: rest =>
    if seen.contains x then dedupeKeepFirst seen rest
    else x :: dedupeKeepFirst (x :: seen) rest

/-- `Path(p).stem`: the final path component without its extension (a
leading dot does not start an extension). -/
def pathStem (p : PyStr) : PyStr :=
  let name := ((splitOnChar '/' p).getLastD []).reverse
  match name.findIdx? (· = '.') with
  | none => name.reverse
  | some i => if i + 1 = name.length then name.reverse else (name.drop (i + 1)).reverse

/-- Add a file to the filesystem (creation of the converted image). -/
def FS.addFile (fs : FS) (p : PyStr) : FS := ⟨p :: fs.files⟩

/-- State threaded through the webp-conversion loop.  `converted` and
`rewrites` are instrumentation: the source paths actually run through the
image codec, and the `(old, new)` replacement pairs applied to the HTML
text. -/
structure TranscodeState where
  fs : FS
  html : PyStr
  artifacts : List PyStr
  converted : List PyStr
  rewrites : List (PyStr × PyStr)
deriving DecidableEq

/-- `Path(urllib.parse.unquote(urlsplit(uri).path.lstrip("/")))`: the
filesystem path a `file:///` locator refers back to. -/
def uriToPath (uri : PyStr) : PyStr := pyUnquote (pyLstripSlashes (urlsplitPath uri))

/-- One iteration of the loop in `convert_webp_images_in_html`: resolve the
`file:///` locator back to a filesystem path, skip a missing file, derive
`stem + ".png"` in the scratch directory, convert only when that output
does not already exist (a codec failure — `decodeOk` false — skips the
iteration), track the artifact and replace every occurrence of the locator
in the HTML. -/
def processWebpUri (decodeOk : PyStr → Bool) (outDir : PyStr)
    (st : TranscodeState) (uri : PyStr) : TranscodeState :=
  let webpPath := uriToPath uri
  if ¬ st.fs.isFile webpPath then st
  else
    let pngName := pathStem webpPath ++ ".png".data
    let pngPath := outDir ++ '/' :: pngName
    if st.fs.isFile pngPath then
      let newUri := as_uri (resolvePath pngPath)
      { st with html := pyReplace st.html uri newUri,
                artifacts := st.artifacts ++ [pngPath],
                rewrites := st.rewrites ++ [(uri, newUri)] }
    else if decodeOk webpPath then
      let newUri := as_uri (resolvePath pngPath)
      { st with fs := st.fs.addFile pngPath,
                html := pyReplace st.html uri newUri,
                artifacts := st.artifacts ++ [pngPath],
                converted := st.converted ++ [webpPath],
                rewrites := st.rewrites ++ [(uri, newUri)] }
    else st

/-- The webp-conversion loop over a list of matched locators. -/
def processWebpList (decodeOk : PyStr → Bool) (outDir : PyStr)
    (st : TranscodeState) (uris : List PyStr) : TranscodeState :=
  uris.foldl (processWebpUri decodeOk outDir) st

/-- `convert_webp_images_in_html(html, html_dir, temp_artifacts)`:
`imageAvailable` models `Image is not None`, `mkdirOk` the scratch-
directory creation, `decodeOk` the per-image codec outcome. -/
def convert_webp_images_in_html (imageAvailable mkdirOk : Bool)
    (decodeOk : PyStr → Bool) (fs : FS) (htmlDir html : PyStr)
    (artifacts : List PyStr) : TranscodeState :=
  if ¬ imageAvailable then ⟨fs, html, artifacts, [], []⟩
  else
    let ms := dedupeKeepFirst [] (findWebpMatches html)
    if ms = [] then ⟨fs, html, artifacts, [], []⟩
    else if ¬ mkdirOk then ⟨fs, html, artifacts, [], []⟩
    else
      let outDir := htmlDir ++ "/.__wkhtml_img_tmp__".data
      let st := processWebpList decodeOk outDir ⟨fs, html, artifacts, [], []⟩ ms
      { st with artifacts := st.artifacts ++ [outDir] }

/-! ### The Sanitizer (`sanitize_html_for_wkhtmltopdf`) — text transform -/

/-- The literal `href=""`. -/
def hrefDQ : PyStr := 'h' :: 'r' :: 'e' :: 'f' :: '=' :: dquote :: [dquote]

/-- The literal `href="#"`. -/
def hrefDQfix : PyStr := 'h' :: 'r' :: 'e' :: 'f' :: '=' :: dquote :: '#' :: [dquote]

/-- The literal `href=''`. -/
def hrefSQ : PyStr := 'h' :: 'r' :: 'e' :: 'f' :: '=' :: squote :: [squote]

/-- The literal `href='#'`. -/
def hrefSQfix : PyStr := 'h' :: 'r' :: 'e' :: 'f' :: '=' :: squote :: '#' :: [squote]

/-- The literal `src=""`. -/
def srcDQ : PyStr := 's' :: 'r' :: 'c' :: '=' :: dquote :: [dquote]

/-- The literal `src="#"`. -/
def srcDQfix : PyStr := 's' :: 'r' :: 'c' :: '=' :: dquote :: '#' :: [dquote]

/-- The literal `src=''`. -/
def srcSQ : PyStr := 's' :: 'r' :: 'c' :: '=' :: squote :: [squote]

/-- The literal `src='#'`. -/
def srcSQfix : PyStr := 's' :: 'r' :: 'c' :: '=' :: squote :: '#' :: [squote]

/-- The fixed literal substitutions applied by the Sanitizer before the
Rewriter: empty `href`/`src` attributes become `#`, `about:blank` becomes
`#`. -/
def fixedSubstitutions (html : PyStr) : PyStr :=
  let h := pyReplace html hrefDQ hrefDQfix
  let h := pyReplace h hrefSQ hrefSQfix
  let h := pyReplace h srcDQ srcDQfix
  let h := pyReplace h srcSQ srcSQfix
  pyReplace h "about:blank".data ['#']

/-- The text transformation performed by
`sanitize_html_for_wkhtmltopdf` between reading and writing the HTML file
(the verbose diagnostic scan is read-only and the file I/O is modelled
away; `artifactsProvided` models `temp_artifacts is not None`). -/
def sanitize_text (imageAvailable mkdirOk : Bool) (decodeOk : PyStr → Bool)
    (artifactsProvided : Bool) (fs : FS) (base html : PyStr)
    (artifacts : List PyStr) : TranscodeState :=
  let h := fixedSubstitutions html
  let h := rewrite_local_urls_to_file_uri fs base h
  if artifactsProvided then
    convert_webp_images_in_html imageAvailable mkdirOk decodeOk fs base h artifacts
  else ⟨fs, h, artifacts, [], []⟩

/-! ### `decode_stderr` -/

/-- `decode_stderr(err_bytes)`: empty bytes give the empty string;
otherwise `err_bytes.decode("utf-8", errors="replace").strip()`.  Because
`errors="replace"` never raises, the `except` branch holding the gb18030
fallback is unreachable and does not appear in the model. -/
def decode_stderr (bs : List Nat) : PyStr :=
  if bs = [] then [] else pyStrip (decodeUtf8Replace bs)

/-! ### The Conversion Orchestrator (`convert_one_file` and
`ensure_utf8_markdown`)

External-process and filesystem outcomes are oracles in `JobEnv`;
exceptions are explicit values of `PyExc`. -/

/-- Python exceptions relevant to one conversion job. -/
inductive PyExc where
  | unicodeDecodeError
  | osError
  | calledProcessError
deriving DecidableEq

/-- Which path is handed to pandoc. -/
inductive PandocInput where
  | original
  | tmpCopy
deriving DecidableEq

/-- Outcome oracles for one conversion job: the byte-read of the source,
its decodability under each probed encoding, the write of the re-encoded
temporary copy, and the four possible external-process invocations. -/
structure JobEnv where
  readOk : Bool
  decUtf8 : Bool
  decUtf8Sig : Bool
  decGb : Bool
  writeTmpOk : Bool
  pandocOk : Bool
  wkOk : Bool
  pandocRetryOk : Bool
  wkRetryOk : Bool
deriving DecidableEq

/-- `ensure_utf8_markdown(input_path, md_tmp_path)`: an unreadable source
is returned as-is; a UTF-8 source is returned as-is; otherwise decode with
`utf-8-sig`, then `gb18030` — a failure of the gb18030 decode
(`UnicodeDecodeError`) or of the temporary-copy write (`OSError`)
propagates to the caller. -/
def ensure_utf8_markdown (env : JobEnv) : Except PyExc PandocInput :=
  if ¬ env.readOk then .ok .original
  else if env.decUtf8 then .ok .original
  else if env.decUtf8Sig then
    if env.writeTmpOk then .ok .tmpCopy else .error .osError
  else if env.decGb then
    if env.writeTmpOk then .ok .tmpCopy else .error .osError
  else .error .unicodeDecodeError

/-- The observable outcome of `convert_one_file`: its result (a returned
boolean or a propagated exception) and the number of pandoc and
wkhtmltopdf invocations. -/
structure JobResult where
  result : Except PyExc Bool
  pandocCalls : Nat
  wkCalls : Nat

/-- `convert_one_file(md_path, css_uris)`.  The encoding probe runs before
the `try` block, so its exceptions propagate.  Inside the `try`:
pandoc, sanitize, then wkhtmltopdf; a wkhtmltopdf `CalledProcessError`
triggers — only when `css_uris` is non-empty — a pandoc run without CSS, a
re-sanitize and one more wkhtmltopdf run.  Every `CalledProcessError`
escaping the `try` body is caught and turned into `False`; the `finally`
cleanup swallows its own `OSError`s. -/
def convert_one_file (env : JobEnv) (cssUris : List PyStr) : JobResult :=
  match ensure_utf8_markdown env with
  | .error e => ⟨.error e, 0, 0⟩
  | .ok _ =>
    if ¬ env.pandocOk then ⟨.ok false, 1, 0⟩
    else if env.wkOk then ⟨.ok true, 1, 1⟩
    else if cssUris ≠ [] then
      if ¬ env.pandocRetryOk then ⟨.ok false, 2, 1⟩
      else if env.wkRetryOk then ⟨.ok true, 2, 2⟩
      else ⟨.ok false, 2, 2⟩
    else ⟨.ok false, 1, 1⟩

/-! ### Success-path cleanup (the `finally` block of `convert_one_file`)

A second filesystem view with directories, for the deletion-order
claim. -/

/-- Filesystem with files and directories (paths as resolved strings). -/
structure FS2 where
  files : List PyStr
  dirs : List PyStr
deriving DecidableEq

/-- File existence. -/
def FS2.isFile (fs : FS2) (p : PyStr) : Bool := fs.files.contains p

/-- Directory existence. -/
def FS2.isDir (fs : FS2) (p : PyStr) : Bool := fs.dirs.contains p

/-- Remove a file. -/
def FS2.removeFile (fs : FS2) (p : PyStr) : FS2 :=
  ⟨fs.files.filter (· ≠ p), fs.dirs⟩

/-- Remove a directory. -/
def FS2.removeDir (fs : FS2) (p : PyStr) : FS2 :=
  ⟨fs.files, fs.dirs.filter (· ≠ p)⟩

/-- A directory is non-empty when some entry lives strictly below it. -/
def FS2.dirNonempty (fs : FS2) (d : PyStr) : Bool :=
  (fs.files ++ fs.dirs).any (fun e => (d ++ ['/']).isPrefixOf e)

/-- One artifact deletion: `p.unlink()` for a file, `p.rmdir()` for a
directory — `rmdir` on a non-empty directory raises `OSError`, which the
per-path `try`/`except` swallows (modelled as a no-op). -/
def cleanupStep (fs : FS2) (p : PyStr) : FS2 :=
  if fs.isFile p then fs.removeFile p
  else if fs.isDir p then
    if fs.dirNonempty p then fs else fs.removeDir p
  else fs

/-- Longest-first order on paths, as in
`sorted(set(temp_artifacts), key=lambda x: len(str(x)), reverse=True)`. -/
def lenGE (a b : PyStr) : Prop := b.length ≤ a.length

instance : DecidableRel lenGE := fun a b => Nat.decLe b.length a.length

instance : IsTotal PyStr lenGE := ⟨fun a b => Nat.le_total b.length a.length⟩

instance : IsTrans PyStr lenGE := ⟨fun _ _ _ h1 h2 => Nat.le_trans h2 h1⟩

/-- The deletion order: deduplicate (the `set`), then sort by length,
longest first. -/
def cleanupOrder (arts : List PyStr) : List PyStr :=
  (dedupeKeepFirst [] arts).insertionSort lenGE

/-- The position of a path in a list (for stating ordering facts). -/
def posIn (l : List PyStr) (x : PyStr) : Nat := l.findIdx (fun y => y = x)

/-- The success branch of the `finally` block: delete the generated HTML
(unless `keep_html_on_success`), delete the temporary re-encoded source
copy, and — only when `keep_html_on_success` is off — delete the tracked
transcoder artifacts longest-first. -/
def cleanup_on_success (keepHtml : Bool) (htmlPath mdTmpPath : PyStr)
    (arts : List PyStr) (fs : FS2) : FS2 :=
  let fs := if fs.isFile htmlPath ∧ ¬ keepHtml then fs.removeFile htmlPath else fs
  let fs := if fs.isFile mdTmpPath then fs.removeFile mdTmpPath else fs
  if keepHtml then fs else (cleanupOrder arts).foldl cleanupStep fs

/-! ### Concrete instances used by counterexamples -/

/-- A job whose source file decodes under none of utf-8, utf-8-sig,
gb18030 (for example a file whose contents are the single byte 0xFF). -/
def envBadEncoding : JobEnv :=
  ⟨true, false, false, false, true, true, true, true, true⟩

/-- A job whose first wkhtmltopdf run fails and whose no-CSS pandoc
regeneration also fails. -/
def envRetryPandocFails : JobEnv :=
  ⟨true, true, false, false, true, true, false, false, true⟩

/-- Counterexample HTML for Rewriter idempotence:
`src="A srcset='B"x C' D" E`. -/
def cexHtml : PyStr :=
  "src=".data ++ [dquote] ++ "A srcset=".data ++ [squote] ++ "B".data ++
    [dquote] ++ "x C".data ++ [squote] ++ " D".data ++ [dquote] ++ " E".data

/-- Counterexample filesystem: the two files `/b/B"x` and
`/b/A srcset='file:/b/B"x C' D` exist. -/
def cexFS : FS :=
  ⟨["/b/B".data ++ [dquote] ++ "x".data,
    "/b/A srcset=".data ++ [squote] ++ "file:/b/B".data ++ [dquote] ++
      "x C".data ++ [squote] ++ " D".data]⟩

/-- Counterexample base directory. -/
def cexBase : PyStr := "/b".data

/-- Counterexample Sanitizer input: `href="" srcset="x src= ""`. -/
def cexSanInput : PyStr :=
  "href=".data ++ [dquote, dquote] ++ " srcset=".data ++ [dquote] ++
    "x src= ".data ++ [dquote, dquote]

end ConvertMD

namespace ConvertMD

/-! ## Helper lemmas -/

/-- Characters that never appear in percent-encoded output. -/
def badChars : List Char :=
  [' ', Char.ofNat 9, Char.ofNat 10, Char.ofNat 13, Char.ofNat 11,
   Char.ofNat 12, dquote, squote, ',', '=']

theorem mem_utf8EncodeChar_lt {c : Char} {b : Nat} (h : b ∈ utf8EncodeChar c) :
    b < 256 := by
  have hv : c.toNat < 0x110000 := by
    rcases c with ⟨v, hval⟩
    rcases hval with h1 | ⟨_, h2⟩
    · exact Nat.lt_trans h1 (by norm_num)
    · exact h2
  simp only [utf8EncodeChar] at h
  split at h
  · simp at h; omega
  · split at h
    · simp at h
      rcases h with h | h
      · have : c.toNat / 0x40 < 0x20 := Nat.div_lt_of_lt_mul (by omega)
        omega
      · have : c.toNat % 0x40 < 0x40 := Nat.mod_lt _ (by norm_num)
        omega
    · split at h
      · simp at h
        rcases h with h | h | h
        · have : c.toNat / 0x1000 < 0x10 := Nat.div_lt_of_lt_mul (by omega)
          omega
        · have : c.toNat / 0x40 % 0x40 < 0x40 := Nat.mod_lt _ (by norm_num)
          omega
        · have : c.toNat % 0x40 < 0x40 := Nat.mod_lt _ (by norm_num)
          omega
      · simp at h
        rcases h with h | h | h | h
        · have : c.toNat / 0x40000 < 5 := Nat.div_lt_of_lt_mul (by omega)
          omega
        · have : c.toNat / 0x1000 % 0x40 < 0x40 := Nat.mod_lt _ (by norm_num)
          omega
        · have : c.toNat / 0x40 % 0x40 < 0x40 := Nat.mod_lt _ (by norm_num)
          omega
        · have : c.toNat % 0x40 < 0x40 := Nat.mod_lt _ (by norm_num)
          omega

set_option maxRecDepth 4000 in
theorem pquoteByte_not_bad : ∀ b < 256, ∀ c ∈ pquoteByte b, badChars.contains c = false := by
  decide

theorem mem_pquote_not_bad {s : PyStr} {c : Char} (h : c ∈ pquote s) :
    badChars.contains c = false := by
  unfold pquote at h
  rcases List.mem_flatMap.mp h with ⟨b, hb, hc⟩
  rcases List.mem_flatMap.mp hb with ⟨ch, _, hbe⟩
  exact pquoteByte_not_bad b (mem_utf8EncodeChar_lt hbe) c hc

theorem not_space_of_not_bad {c : Char} (h : badChars.contains c = false) :
    isSpaceChar c = false := by
  by_contra hs
  rw [Bool.not_eq_false] at hs
  simp only [isSpaceChar, Bool.or_eq_true, decide_eq_true_eq] at hs
  rcases hs with ((((h1 | h1) | h1) | h1) | h1) | h1 <;> subst h1 <;> revert h <;> decide

theorem dropWhile_eq_self_of_head {p : Char → Bool} :
    ∀ {s : PyStr}, (∀ c ∈ s, p c = false) → s.dropWhile p = s
  | [], _ => rfl
  | c :: t, h => by
    have := h c (List.mem_cons_self c t)
    simp [List.dropWhile, this]

theorem pyStrip_eq_self_of_no_space {s : PyStr} (h : ∀ c ∈ s, isSpaceChar c = false) :
    pyStrip s = s := by
  unfold pyStrip
  rw [dropWhile_eq_self_of_head h, dropWhile_eq_self_of_head, List.reverse_reverse]
  intro c hc
  exact h c (List.mem_reverse.mp hc)

theorem as_uri_no_space (p : PyStr) : ∀ c ∈ as_uri p, isSpaceChar c = false := by
  intro c hc
  unfold as_uri at hc
  simp only [List.mem_cons] at hc
  rcases hc with h | h | h | h | h | h | h | h
  all_goals first
    | (subst h; decide)
    | exact not_space_of_not_bad (mem_pquote_not_bad h)

theorem should_keep_as_uri (p : PyStr) : should_keep (as_uri p) = true := by
  unfold should_keep
  rw [pyStrip_eq_self_of_no_space (as_uri_no_space p)]
  have : startsWithStr "file://" (as_uri p) = true := by
    simp [startsWithStr, as_uri, List.isPrefixOf]
  simp [this]

theorem to_uri_if_exists_of_keep {fs : FS} {base url : PyStr}
    (h : should_keep url = true) : to_uri_if_exists fs base url = url := by
  unfold to_uri_if_exists
  simp [h]

/-- When no candidate resolves, `to_uri_if_exists` returns the reference
unchanged. -/
theorem to_uri_unresolved {fs : FS} {base url : PyStr}
    (hk : should_keep url = false)
    (hd : driveMatch (normalize_local_path url) = false)
    (h1 : fs.isFile (resolvePath (pathJoin base (normalize_local_path url))) = false)
    (h2 : ['/'].isPrefixOf (normalize_local_path url) = true →
      fs.isFile (resolvePath (pathJoin base (pyLstripSlashes (normalize_local_path url)))) = false) :
    to_uri_if_exists fs base url = url := by
  unfold to_uri_if_exists
  simp only [hk, Bool.false_eq_true, if_false, hd, h1]
  by_cases hp : ['/'].isPrefixOf (normalize_local_path url) = true
  · simp [hp, h2 hp]
  · simp [hp]

/-! ## Claim theorems -/

/-- C3: every reference that, after stripping surrounding whitespace, is
empty or starts with `#`, `http://`, `https://`, `data:`, `mailto:` or
`file://` is returned unchanged by the Normalizer, for any base directory
and any filesystem state. -/
theorem should_keep_returns_unchanged (fs : FS) (base url : PyStr)
    (h : pyStrip url = [] ∨ startsWithStr "#" (pyStrip url) = true ∨
      startsWithStr "http://" (pyStrip url) = true ∨
      startsWithStr "https://" (pyStrip url) = true ∨
      startsWithStr "data:" (pyStrip url) = true ∨
      startsWithStr "mailto:" (pyStrip url) = true ∨
      startsWithStr "file://" (pyStrip url) = true) :
    to_uri_if_exists fs base url = url := by
  apply to_uri_if_exists_of_keep
  unfold should_keep
  rcases h with h | h | h | h | h | h | h <;> simp [h]

/-- Witness for C3 at the anchor reference `#top`. -/
theorem should_keep_returns_unchanged_witness :
    to_uri_if_exists ⟨[]⟩ "/b".data "#top".data = "#top".data :=
  should_keep_returns_unchanged ⟨[]⟩ "/b".data "#top".data (Or.inr (Or.inl (by decide)))

/-- C4: a reference that is not kept, does not match the drive-letter
pattern, and resolves to no existing file (neither directly against the
base directory nor, for a root-relative form, after stripping the leading
slashes) is returned unchanged — no locator is fabricated for a
non-existing file. -/
theorem no_fabricated_locator (fs : FS) (base url : PyStr)
    (hk : should_keep url = false)
    (hd : driveMatch (normalize_local_path url) = false)
    (h1 : fs.isFile (resolvePath (pathJoin base (normalize_local_path url))) = false)
    (h2 : ['/'].isPrefixOf (normalize_local_path url) = true →
      fs.isFile (resolvePath (pathJoin base (pyLstripSlashes (normalize_local_path url)))) = false) :
    to_uri_if_exists fs base url = url :=
  to_uri_unresolved hk hd h1 h2

/-- Witness for C4: `missing.png` against an empty filesystem. -/
theorem no_fabricated_locator_witness :
    to_uri_if_exists ⟨[]⟩ "/b".data "missing.png".data = "missing.png".data :=
  no_fabricated_locator ⟨[]⟩ "/b".data "missing.png".data (by decide) (by decide)
    (by decide) (fun h => by revert h; decide)

/-- C1 as stated is false: a source file that decodes under none of utf-8,
utf-8-sig and gb18030 makes the encoding probe raise `UnicodeDecodeError`
before the `try` block of `convert_one_file`, so the exception propagates
to the caller instead of becoming a boolean. -/
theorem convert_one_file_total_cex :
    (convert_one_file envBadEncoding []).result =
      Except.error PyExc.unicodeDecodeError := rfl

/-- C1 amended: whenever the encoding probe returns normally,
`convert_one_file` returns a boolean — every `CalledProcessError` raised
by the external-process steps is caught and converted into the result. -/
theorem convert_one_file_boolean_after_probe (env : JobEnv) (cssUris : List PyStr)
    (h : ∃ inp, ensure_utf8_markdown env = Except.ok inp) :
    ∃ b, (convert_one_file env cssUris).result = Except.ok b := by
  rcases h with ⟨inp, hinp⟩
  simp only [convert_one_file, hinp]
  split
  · exact ⟨false, rfl⟩
  · split
    · exact ⟨true, rfl⟩
    · split
      · split
        · exact ⟨false, rfl⟩
        · split
          · exact ⟨true, rfl⟩
          · exact ⟨false, rfl⟩
      · exact ⟨false, rfl⟩

/-- Witness for the amended C1: an all-successful job returns a boolean. -/
theorem convert_one_file_boolean_after_probe_witness :
    ∃ b, (convert_one_file ⟨true, true, true, true, true, true, true, true, true⟩
      []).result = Except.ok b :=
  convert_one_file_boolean_after_probe _ [] ⟨PandocInput.original, rfl⟩

/-- C2 as stated is false: when the renderer fails with a stylesheet
attached but the no-CSS pandoc regeneration itself fails, the renderer is
invoked no second time (one invocation in total, not two). -/
theorem renderer_retry_cex :
    envRetryPandocFails.wkOk = false ∧ envRetryPandocFails.pandocOk = true ∧
    (convert_one_file envRetryPandocFails [['c']]).wkCalls = 1 ∧
    (convert_one_file envRetryPandocFails [['c']]).result = Except.ok false :=
  ⟨rfl, rfl, rfl, rfl⟩

/-- C2 amended: when the first renderer run fails, the renderer is retried
exactly once if stylesheets were attached and the no-CSS regeneration
succeeds; it is not retried if no stylesheets were attached or if the
regeneration fails; the job succeeds exactly when the retried renderer run
succeeds. -/
theorem renderer_retry_policy (env : JobEnv) (cssUris : List PyStr)
    (hprobe : ∃ inp, ensure_utf8_markdown env = Except.ok inp)
    (hpandoc : env.pandocOk = true) (hwk : env.wkOk = false) :
    (convert_one_file env cssUris).wkCalls =
      (if cssUris = [] then 1 else if env.pandocRetryOk then 2 else 1) ∧
    (convert_one_file env cssUris).result =
      Except.ok (decide (cssUris ≠ []) && (env.pandocRetryOk && env.wkRetryOk)) := by
  rcases hprobe with ⟨inp, hinp⟩
  simp only [convert_one_file, hinp, hpandoc, hwk]
  by_cases hc : cssUris = []
  · simp [hc]
  · by_cases hr : env.pandocRetryOk = true
    · by_cases hw : env.wkRetryOk = true
      · simp [hc, hr, hw]
      · simp only [Bool.not_eq_true] at hw
        simp [hc, hr, hw]
    · simp only [Bool.not_eq_true] at hr
      simp [hc, hr]

/-- Witness for the amended C2 at a job whose renderer fails once and
whose no-CSS retry succeeds. -/
theorem renderer_retry_policy_witness :
    (convert_one_file ⟨true, true, false, false, true, true, false, true, true⟩
        [['c']]).wkCalls =
      (if ([['c']] : List PyStr) = [] then 1
       else if (true : Bool) then 2 else 1) ∧
    (convert_one_file ⟨true, true, false, false, true, true, false, true, true⟩
        [['c']]).result =
      Except.ok (decide (([['c']] : List PyStr) ≠ []) && (true && true)) :=
  renderer_retry_policy _ [['c']] ⟨PandocInput.original, rfl⟩ rfl rfl

/-- C9 is a code bug: `decode_stderr` decodes with
`errors="replace"`, which never raises, so the gb18030 fallback is dead
code.  For the GBK/gb18030 bytes `C4 E3` (the encoding of U+4F60) the
result is two U+FFFD replacement characters, not the gb18030 decoding. -/
theorem decode_stderr_no_gb_fallback :
    decode_stderr [0xC4, 0xE3] = [replChar, replChar] ∧
    decode_stderr [0xC4, 0xE3] ≠ [Char.ofNat 0x4F60] := by
  refine ⟨by decide, by decide⟩

/-- C5 as stated is false: rewriting the srcset value deletes the quote
character that previously closed the surrounding `src` attribute value, so
the second pass matches a different value and rewrites it. -/
theorem rewriter_idempotence_cex :
    rewrite_local_urls_to_file_uri cexFS cexBase
        (rewrite_local_urls_to_file_uri cexFS cexBase cexHtml) ≠
      rewrite_local_urls_to_file_uri cexFS cexBase cexHtml := by
  decide

/-- C5 amended: at the locator level the Normalizer is idempotent — every
locator produced by a first pass is either classified as keep or mapped to
itself by a second pass over the same filesystem state. -/
theorem normalizer_pointwise_idempotent (fs : FS) (base url : PyStr) :
    should_keep (to_uri_if_exists fs base url) = true ∨
    to_uri_if_exists fs base (to_uri_if_exists fs base url) =
      to_uri_if_exists fs base url := by
  by_cases hk : should_keep url = true
  · left
    rw [to_uri_if_exists_of_keep hk]
    exact hk
  · rw [Bool.not_eq_true] at hk
    by_cases hd : driveMatch (normalize_local_path url) = true
    · left
      have hres : to_uri_if_exists fs base url =
          as_uri (resolvePath (normalize_local_path url)) := by
        unfold to_uri_if_exists
        simp [hk, hd]
      rw [hres]
      exact should_keep_as_uri _
    · rw [Bool.not_eq_true] at hd
      by_cases hc1 : fs.isFile (resolvePath (pathJoin base (normalize_local_path url))) = true
      · left
        have hres : to_uri_if_exists fs base url =
            as_uri (resolvePath (pathJoin base (normalize_local_path url))) := by
          unfold to_uri_if_exists
          simp [hk, hd, hc1]
        rw [hres]
        exact should_keep_as_uri _
      · rw [Bool.not_eq_true] at hc1
        by_cases hp : ['/'].isPrefixOf (normalize_local_path url) = true
        · by_cases hc2 : fs.isFile (resolvePath (pathJoin base
              (pyLstripSlashes (normalize_local_path url)))) = true
          · left
            have hres : to_uri_if_exists fs base url =
                as_uri (resolvePath (pathJoin base
                  (pyLstripSlashes (normalize_local_path url)))) := by
              unfold to_uri_if_exists
              simp [hk, hd, hc1, hp, hc2]
            rw [hres]
            exact should_keep_as_uri _
          · right
            rw [Bool.not_eq_true] at hc2
            have hres : to_uri_if_exists fs base url = url :=
              to_uri_unresolved hk hd hc1 (fun _ => hc2)
            rw [hres, hres]
        · right
          have hres : to_uri_if_exists fs base url = url :=
            to_uri_unresolved hk hd hc1 (fun hpre => absurd hpre hp)
          rw [hres, hres]

/-! ## Cleanup (C8) -/

theorem contains_eq_false_iff {l : List PyStr} {x : PyStr} :
    l.contains x = false ↔ x ∉ l := by
  rw [Bool.eq_false_iff]
  constructor
  · intro h hm
    exact h (List.elem_eq_true_of_mem hm)
  · intro h hc
    exact h (List.mem_of_elem_eq_true hc)

theorem cleanupStep_isFile_false {g : FS2} {x p : PyStr}
    (h : g.isFile x = false) : (cleanupStep g p).isFile x = false := by
  have hx : x ∉ g.files := contains_eq_false_iff.mp h
  unfold cleanupStep
  split
  · unfold FS2.removeFile FS2.isFile
    rw [contains_eq_false_iff]
    intro hm
    exact hx (List.mem_filter.mp hm).1
  · split
    · split
      · exact h
      · exact h
    · exact h

theorem cleanupStep_self_isFile_false (g : FS2) (p : PyStr) :
    (cleanupStep g p).isFile p = false := by
  by_cases hf : g.isFile p = true
  · unfold cleanupStep
    rw [if_pos hf]
    unfold FS2.removeFile FS2.isFile
    simp
  · rw [Bool.not_eq_true] at hf
    exact cleanupStep_isFile_false hf

theorem foldl_cleanupStep_isFile_false {x : PyStr} :
    ∀ (l : List PyStr) (g : FS2), g.isFile x = false →
      (l.foldl cleanupStep g).isFile x = false
  | [], _, h => h
  | _ :: t, g, h => foldl_cleanupStep_isFile_false t _ (cleanupStep_isFile_false h)

theorem foldl_cleanupStep_mem_isFile_false {a : PyStr} :
    ∀ (l : List PyStr) (g : FS2), a ∈ l → (l.foldl cleanupStep g).isFile a = false
  | p :: t, g, hmem => by
    rcases List.mem_cons.mp hmem with rfl | hmem
    · exact foldl_cleanupStep_isFile_false t _ (cleanupStep_self_isFile_false g a)
    · exact foldl_cleanupStep_mem_isFile_false t _ hmem

theorem dedupeKeepFirst_cons_mem {seen : List PyStr} {x : PyStr} (t : List PyStr)
    (hs : seen.contains x = true) :
    dedupeKeepFirst seen (x :: t) = dedupeKeepFirst seen t := by
  conv_lhs => unfold dedupeKeepFirst
  rw [if_pos hs]

theorem dedupeKeepFirst_cons_new {seen : List PyStr} {x : PyStr} (t : List PyStr)
    (hs : ¬ seen.contains x = true) :
    dedupeKeepFirst seen (x :: t) = x :: dedupeKeepFirst (x :: seen) t := by
  conv_lhs => unfold dedupeKeepFirst
  rw [if_neg hs]

theorem mem_dedupeKeepFirst {a : PyStr} :
    ∀ (seen l : List PyStr), a ∈ l → a ∈ seen ∨ a ∈ dedupeKeepFirst seen l
  | seen, x :: t, hmem => by
    by_cases hs : seen.contains x = true
    · rw [dedupeKeepFirst_cons_mem t hs]
      rcases List.mem_cons.mp hmem with rfl | hmem
      · exact Or.inl (List.mem_of_elem_eq_true hs)
      · exact mem_dedupeKeepFirst seen t hmem
    · rw [dedupeKeepFirst_cons_new t hs]
      rcases List.mem_cons.mp hmem with rfl | hmem
      · exact Or.inr (List.mem_cons_self _ _)
      · rcases mem_dedupeKeepFirst (x :: seen) t hmem with h2 | h2
        · rcases List.mem_cons.mp h2 with rfl | h2
          · exact Or.inr (List.mem_cons_self _ _)
          · exact Or.inl h2
        · exact Or.inr (List.mem_cons_of_mem _ h2)

theorem mem_cleanupOrder {a : PyStr} {arts : List PyStr} (h : a ∈ arts) :
    a ∈ cleanupOrder arts := by
  unfold cleanupOrder
  rw [List.Perm.mem_iff (List.perm_insertionSort lenGE _)]
  rcases mem_dedupeKeepFirst [] arts h with h2 | h2
  · exact absurd h2 (List.not_mem_nil a)
  · exact h2

theorem getElem_posIn {l : List PyStr} {x : PyStr}
    (h : posIn l x < l.length) : l[posIn l x] = x := by
  have h' : l.findIdx (fun y => y = x) < l.length := h
  have := List.findIdx_getElem (w := h')
  simpa [posIn] using this

theorem cleanupOrder_before_of_longer {arts : List PyStr} {f d : PyStr}
    (hf : f ∈ arts) (hd : d ∈ arts) (hlen : d.length < f.length) :
    posIn (cleanupOrder arts) f < posIn (cleanupOrder arts) d := by
  have hfm : f ∈ cleanupOrder arts := mem_cleanupOrder hf
  have hdm : d ∈ cleanupOrder arts := mem_cleanupOrder hd
  have hfi : posIn (cleanupOrder arts) f < (cleanupOrder arts).length :=
    List.findIdx_lt_length_of_exists ⟨f, hfm, by simp⟩
  have hdi : posIn (cleanupOrder arts) d < (cleanupOrder arts).length :=
    List.findIdx_lt_length_of_exists ⟨d, hdm, by simp⟩
  by_contra hcon
  push_neg at hcon
  have hne : posIn (cleanupOrder arts) d ≠ posIn (cleanupOrder arts) f := by
    intro he
    have h1 := getElem_posIn hfi
    have h2 := getElem_posIn hdi
    simp only [he] at h2
    rw [h1] at h2
    rw [h2] at hlen
    exact Nat.lt_irrefl _ hlen
  have hlt : posIn (cleanupOrder arts) d < posIn (cleanupOrder arts) f :=
    Nat.lt_of_le_of_ne hcon hne
  have hsorted : (cleanupOrder arts).Sorted lenGE :=
    List.sorted_insertionSort lenGE _
  have hrel := hsorted.rel_get_of_lt
    (a := ⟨posIn (cleanupOrder arts) d, hdi⟩)
    (b := ⟨posIn (cleanupOrder arts) f, hfi⟩) hlt
  unfold lenGE at hrel
  simp only [List.get_eq_getElem] at hrel
  rw [getElem_posIn hfi, getElem_posIn hdi] at hrel
  omega

/-- C8 as stated is false: with keep-HTML mode active, a successful job
does not delete the tracked transcoder artifacts at all. -/
theorem cleanup_keep_html_cex :
    (cleanup_on_success true "/h".data "/t".data ["/d/x.png".data]
      ⟨["/d/x.png".data], ["/d".data]⟩).isFile "/d/x.png".data = true := by
  decide

/-- C8 amended: on job success with keep-HTML mode off, every tracked
transcoder artifact that is a file is deleted, artifacts are processed
longest-first so that every file precedes any tracked directory containing
it, and a non-empty directory is left in place (its deletion failure
swallowed). -/
theorem cleanup_order_and_deletion (htmlPath mdTmpPath : PyStr)
    (arts : List PyStr) (fs : FS2) :
    (∀ a ∈ arts,
      (cleanup_on_success false htmlPath mdTmpPath arts fs).isFile a = false) ∧
    (∀ f ∈ arts, ∀ d ∈ arts, (d ++ ['/']).isPrefixOf f = true →
      posIn (cleanupOrder arts) f < posIn (cleanupOrder arts) d) ∧
    (∀ g : FS2, ∀ d : PyStr, g.isFile d = false → g.isDir d = true →
      g.dirNonempty d = true → cleanupStep g d = g) := by
  refine ⟨?_, ?_, ?_⟩
  · intro a ha
    unfold cleanup_on_success
    simp only [Bool.false_eq_true, and_false, if_false, if_neg]
    exact foldl_cleanupStep_mem_isFile_false _ _ (mem_cleanupOrder ha)
  · intro f hf d hd hpre
    apply cleanupOrder_before_of_longer hf hd
    rcases List.isPrefixOf_iff_prefix.mp hpre with ⟨t, ht⟩
    have : f.length = d.length + 1 + t.length := by
      rw [← ht]
      simp
      omega
    omega
  · intro g d h1 h2 h3
    unfold cleanupStep
    rw [if_neg (by simp [h1]), if_pos h2, if_pos h3]

/-- Witness for the amended C8: a file artifact inside a tracked directory
is deleted and ordered before that directory. -/
theorem cleanup_order_and_deletion_witness :
    ((cleanup_on_success false "/h".data "/t".data
        ["/d".data, "/d/x.png".data]
        ⟨["/d/x.png".data], ["/d".data]⟩).isFile "/d/x.png".data = false) ∧
    posIn (cleanupOrder ["/d".data, "/d/x.png".data]) "/d/x.png".data <
      posIn (cleanupOrder ["/d".data, "/d/x.png".data]) "/d".data :=
  ⟨(cleanup_order_and_deletion "/h".data "/t".data
      ["/d".data, "/d/x.png".data] ⟨["/d/x.png".data], ["/d".data]⟩).1
        "/d/x.png".data (by decide),
   (cleanup_order_and_deletion "/h".data "/t".data
      ["/d".data, "/d/x.png".data] ⟨["/d/x.png".data], ["/d".data]⟩).2.1
        "/d/x.png".data (by decide) "/d".data (by decide) (by decide)⟩

/-! ## Image Transcoder (C10) -/

theorem FS.isFile_addFile {fs : FS} {p x : PyStr} (h : fs.isFile x = true) :
    (fs.addFile p).isFile x = true := by
  unfold FS.addFile FS.isFile at *
  exact List.elem_eq_true_of_mem
    (List.mem_cons_of_mem _ (List.mem_of_elem_eq_true h))

theorem FS.isFile_addFile_self (fs : FS) (p : PyStr) :
    (fs.addFile p).isFile p = true := by
  unfold FS.addFile FS.isFile
  exact List.elem_eq_true_of_mem (List.mem_cons_self _ _)

theorem processWebpUri_fs_mono {decodeOk : PyStr → Bool} {outDir : PyStr}
    {st : TranscodeState} {u x : PyStr} (h : st.fs.isFile x = true) :
    (processWebpUri decodeOk outDir st u).fs.isFile x = true := by
  simp only [processWebpUri]
  split
  · exact h
  · split
    · exact h
    · split
      · exact FS.isFile_addFile h
      · exact h

theorem processWebpList_fs_mono {decodeOk : PyStr → Bool} {outDir x : PyStr} :
    ∀ (l : List PyStr) (st : TranscodeState), st.fs.isFile x = true →
      (processWebpList decodeOk outDir st l).fs.isFile x = true
  | [], _, h => h
  | _ :: t, st, h =>
    processWebpList_fs_mono t _ (processWebpUri_fs_mono h)

theorem processWebpUri_creates_png {decodeOk : PyStr → Bool}
    {outDir : PyStr} {st : TranscodeState} {u : PyStr}
    (hw : st.fs.isFile (uriToPath u) = true)
    (hdec : decodeOk (uriToPath u) = true) :
    (processWebpUri decodeOk outDir st u).fs.isFile
      (outDir ++ '/' :: (pathStem (uriToPath u) ++ ".png".data)) = true := by
  simp only [processWebpUri]
  rw [if_neg (by simp [hw])]
  by_cases hpng : st.fs.isFile
      (outDir ++ '/' :: (pathStem (uriToPath u) ++ ".png".data)) = true
  · rw [if_pos hpng]
    exact hpng
  · rw [if_neg hpng, if_pos hdec]
    exact FS.isFile_addFile_self _ _

theorem processWebpUri_rewrites_of_exists {decodeOk : PyStr → Bool}
    {outDir : PyStr} {st : TranscodeState} {u : PyStr}
    (hw : st.fs.isFile (uriToPath u) = true)
    (hdec : decodeOk (uriToPath u) = true) :
    (processWebpUri decodeOk outDir st u).rewrites = st.rewrites ++
      [(u, as_uri (resolvePath
        (outDir ++ '/' :: (pathStem (uriToPath u) ++ ".png".data))))] := by
  simp only [processWebpUri]
  rw [if_neg (by simp [hw])]
  by_cases hpng : st.fs.isFile
      (outDir ++ '/' :: (pathStem (uriToPath u) ++ ".png".data)) = true
  · rw [if_pos hpng]
  · rw [if_neg hpng, if_pos hdec]

theorem processWebpUri_skip_existing (decodeOk : PyStr → Bool)
    {outDir : PyStr} {st : TranscodeState} {u : PyStr}
    (hw : st.fs.isFile (uriToPath u) = true)
    (hpng : st.fs.isFile
      (outDir ++ '/' :: (pathStem (uriToPath u) ++ ".png".data)) = true) :
    processWebpUri decodeOk outDir st u =
      { st with
        html := pyReplace st.html u (as_uri (resolvePath
          (outDir ++ '/' :: (pathStem (uriToPath u) ++ ".png".data)))),
        artifacts := st.artifacts ++
          [outDir ++ '/' :: (pathStem (uriToPath u) ++ ".png".data)],
        rewrites := st.rewrites ++ [(u, as_uri (resolvePath
          (outDir ++ '/' :: (pathStem (uriToPath u) ++ ".png".data))))] } := by
  simp only [processWebpUri]
  rw [if_neg (by simp [hw]), if_pos hpng]

/-- C10: two distinct matched webp locators whose referenced files share a
filename stem derive the same converted output path `stem + ".png"` in the
scratch directory; by the time the second locator is processed that output
already exists, so the second file is not run through the codec
(`converted` is unchanged) and both locators are rewritten to the same
converted-image locator. -/
theorem webp_same_stem_single_transcode
    (decodeOk : PyStr → Bool) (outDir : PyStr) (st0 : TranscodeState)
    (l1 l2 : List PyStr) (u1 u2 : PyStr)
    (hne : u1 ≠ u2)
    (hw1 : st0.fs.isFile (uriToPath u1) = true)
    (hw2 : st0.fs.isFile (uriToPath u2) = true)
    (hstem : pathStem (uriToPath u1) = pathStem (uriToPath u2))
    (hdec : decodeOk (uriToPath u1) = true) :
    (processWebpUri decodeOk outDir
        (processWebpList decodeOk outDir st0 l1) u1).rewrites =
      (processWebpList decodeOk outDir st0 l1).rewrites ++
        [(u1, as_uri (resolvePath
          (outDir ++ '/' :: (pathStem (uriToPath u1) ++ ".png".data))))] ∧
    (processWebpList decodeOk outDir
        (processWebpUri decodeOk outDir
          (processWebpList decodeOk outDir st0 l1) u1) l2).fs.isFile
      (outDir ++ '/' :: (pathStem (uriToPath u1) ++ ".png".data)) = true ∧
    processWebpUri decodeOk outDir
        (processWebpList decodeOk outDir
          (processWebpUri decodeOk outDir
            (processWebpList decodeOk outDir st0 l1) u1) l2) u2 =
      { processWebpList decodeOk outDir
          (processWebpUri decodeOk outDir
            (processWebpList decodeOk outDir st0 l1) u1) l2 with
        html := pyReplace
          (processWebpList decodeOk outDir
            (processWebpUri decodeOk outDir
              (processWebpList decodeOk outDir st0 l1) u1) l2).html u2
          (as_uri (resolvePath
            (outDir ++ '/' :: (pathStem (uriToPath u1) ++ ".png".data)))),
        artifacts := (processWebpList decodeOk outDir
            (processWebpUri decodeOk outDir
              (processWebpList decodeOk outDir st0 l1) u1) l2).artifacts ++
          [outDir ++ '/' :: (pathStem (uriToPath u1) ++ ".png".data)],
        rewrites := (processWebpList decodeOk outDir
            (processWebpUri decodeOk outDir
              (processWebpList decodeOk outDir st0 l1) u1) l2).rewrites ++
          [(u2, as_uri (resolvePath
            (outDir ++ '/' :: (pathStem (uriToPath u1) ++ ".png".data))))] } := by
  have hw1A : (processWebpList decodeOk outDir st0 l1).fs.isFile (uriToPath u1) = true :=
    processWebpList_fs_mono l1 st0 hw1
  have hpngStep : (processWebpUri decodeOk outDir
      (processWebpList decodeOk outDir st0 l1) u1).fs.isFile
      (outDir ++ '/' :: (pathStem (uriToPath u1) ++ ".png".data)) = true :=
    processWebpUri_creates_png hw1A hdec
  have hpngB : (processWebpList decodeOk outDir
      (processWebpUri decodeOk outDir
        (processWebpList decodeOk outDir st0 l1) u1) l2).fs.isFile
      (outDir ++ '/' :: (pathStem (uriToPath u1) ++ ".png".data)) = true :=
    processWebpList_fs_mono l2 _ hpngStep
  have hw2B : (processWebpList decodeOk outDir
      (processWebpUri decodeOk outDir
        (processWebpList decodeOk outDir st0 l1) u1) l2).fs.isFile
      (uriToPath u2) = true :=
    processWebpList_fs_mono l2 _ (processWebpUri_fs_mono
      (processWebpList_fs_mono l1 st0 hw2))
  refine ⟨processWebpUri_rewrites_of_exists hw1A hdec, hpngB, ?_⟩
  have := processWebpUri_skip_existing decodeOk hw2B (hstem ▸ hpngB)
  rw [this]
  rw [← hstem]

/-! ## srcset structure (C6): string lemmas -/

theorem dropWhile_head_false {p : Char → Bool} :
    ∀ (s : PyStr) {c : Char} {t : PyStr}, s.dropWhile p = c :: t → p c = false := by
  intro s
  induction s with
  | nil =>
    intro c t h
    simp [List.dropWhile] at h
  | cons x s2 ih =>
    intro c t h
    by_cases hx : p x = true
    · simp only [List.dropWhile, hx, if_true] at h
      exact ih h
    · rw [Bool.not_eq_true] at hx
      simp only [List.dropWhile, hx, Bool.false_eq_true, if_false] at h
      injection h with h1 h2
      rw [← h1]
      exact hx

theorem dropWhile_eq_self_of_headD {p : Char → Bool} {s : PyStr} {d : Char}
    (hd : p d = false) (h : p (s.headD d) = false) : s.dropWhile p = s := by
  cases s with
  | nil => rfl
  | cons c t =>
    simp only [List.headD_cons] at h
    simp [List.dropWhile, h]

theorem headD_reverse (s : PyStr) (d : Char) : s.reverse.headD d = s.getLastD d := by
  cases hs : s.reverse with
  | nil =>
    have : s = [] := by simpa using congrArg List.reverse hs
    simp [this]
  | cons c t =>
    have : s = (c :: t).reverse := by
      rw [← hs, List.reverse_reverse]
    rw [this]
    simp [List.getLastD_concat]

theorem pyStrip_ends :
    ∀ s : PyStr, pyStrip s = [] ∨
      (isSpaceChar ((pyStrip s).headD 'x') = false ∧
       isSpaceChar ((pyStrip s).getLastD 'x') = false) := by
  intro s
  by_cases hn : pyStrip s = []
  · exact Or.inl hn
  · right
    unfold pyStrip at *
    set A := s.dropWhile isSpaceChar with hA
    set B := A.reverse.dropWhile isSpaceChar with hB
    constructor
    · cases hBr : B.reverse with
      | nil => exact absurd hBr hn
      | cons c t =>
        have hpre : B.reverse <+: A := by
          have hsuf : B <:+ A.reverse := List.dropWhile_suffix _
          have := List.reverse_prefix.mpr hsuf
          rwa [List.reverse_reverse] at this
        rcases hpre with ⟨u, hu⟩
        rw [hBr] at hu
        have hAc : List.dropWhile isSpaceChar s = c :: (t ++ u) := by
          rw [← hA, ← hu]
          simp
        simp only [List.headD_cons]
        exact dropWhile_head_false s hAc
    · cases hBc : B with
      | nil =>
        exfalso
        apply hn
        rw [hBc]
        rfl
      | cons c t =>
        have he : A.reverse.dropWhile isSpaceChar = c :: t := by
          rw [← hB]
          exact hBc
        have hc : isSpaceChar c = false := dropWhile_head_false A.reverse he
        rw [List.reverse_cons, List.getLastD_concat]
        exact hc

theorem pyStrip_eq_self_of_ends {s : PyStr}
    (h1 : isSpaceChar (s.headD 'x') = false)
    (h2 : isSpaceChar (s.getLastD 'x') = false) : pyStrip s = s := by
  unfold pyStrip
  rw [dropWhile_eq_self_of_headD (d := 'x') (by decide) h1]
  rw [dropWhile_eq_self_of_headD (d := 'x') (by decide)
    (by rw [headD_reverse]; exact h2)]
  exact List.reverse_reverse s

theorem pyStrip_idem (s : PyStr) : pyStrip (pyStrip s) = pyStrip s := by
  rcases pyStrip_ends s with h | ⟨h1, h2⟩
  · rw [h]
    rfl
  · exact pyStrip_eq_self_of_ends h1 h2

theorem pyStrip_cons_space {c : Char} {s : PyStr} (h : isSpaceChar c = true) :
    pyStrip (c :: s) = pyStrip s := by
  unfold pyStrip
  simp [List.dropWhile, h]

/-! pySplitWs lemmas -/

theorem pySplitWsAux_append_word :
    ∀ (w : PyStr), (∀ c ∈ w, isSpaceChar c = false) → ∀ (acc rest : PyStr),
      pySplitWsAux acc (w ++ rest) = pySplitWsAux (w.reverse ++ acc) rest
  | [], _, acc, rest => by simp
  | c :: w2, hw, acc, rest => by
    have hc : isSpaceChar c = false := hw c (List.mem_cons_self _ _)
    show pySplitWsAux acc (c :: (w2 ++ rest)) = _
    simp only [pySplitWsAux, hc, Bool.false_eq_true, if_false]
    rw [pySplitWsAux_append_word w2 (fun x hx => hw x (List.mem_cons_of_mem _ hx))]
    simp

theorem pySplitWsAux_flush {c : Char} {acc : PyStr} (rest : PyStr)
    (hc : isSpaceChar c = true) (hacc : acc ≠ []) :
    pySplitWsAux acc (c :: rest) = acc.reverse :: pySplitWsAux [] rest := by
  simp [pySplitWsAux, hc, hacc]

theorem pySplitWsAux_nil (acc : PyStr) :
    pySplitWsAux acc [] = if acc = [] then [] else [acc.reverse] := rfl

theorem pySplitWsAux_ne_nil {acc : PyStr} (hacc : acc ≠ []) :
    ∀ (s : PyStr), pySplitWsAux acc s ≠ []
  | [] => by simp [pySplitWsAux_nil, hacc]
  | c :: rest => by
    by_cases hc : isSpaceChar c = true
    · rw [pySplitWsAux_flush rest hc hacc]
      exact List.cons_ne_nil _ _
    · rw [Bool.not_eq_true] at hc
      simp only [pySplitWsAux, hc, Bool.false_eq_true, if_false]
      exact pySplitWsAux_ne_nil (List.cons_ne_nil c acc) rest

theorem pySplitWs_ne_nil_of_stripped {s : PyStr}
    (hne : pyStrip s ≠ []) : pySplitWs (pyStrip s) ≠ [] := by
  rcases pyStrip_ends s with h | ⟨h1, _⟩
  · exact absurd h hne
  · cases hs : pyStrip s with
    | nil => exact absurd hs hne
    | cons c t =>
      rw [hs] at h1
      simp only [List.headD_cons] at h1
      unfold pySplitWs
      simp only [pySplitWsAux, h1, Bool.false_eq_true, if_false]
      exact pySplitWsAux_ne_nil (List.cons_ne_nil c []) t

theorem joinWith_cons_cons (sep x y : PyStr) (ys : List PyStr) :
    joinWith sep (x :: y :: ys) = x ++ (sep ++ joinWith sep (y :: ys)) := by
  show x ++ sep ++ joinWith sep (y :: ys) = _
  rw [List.append_assoc]

theorem pySplitWs_single_word {w : PyStr} (hw1 : w ≠ [])
    (hw2 : ∀ c ∈ w, isSpaceChar c = false) : pySplitWsAux [] w = [w] := by
  have h := pySplitWsAux_append_word w hw2 [] []
  rw [List.append_nil, List.append_nil] at h
  rw [h, pySplitWsAux_nil]
  simp [hw1]

theorem joinWith_space_tokens :
    ∀ (ts : List PyStr), (∀ t ∈ ts, t ≠ [] ∧ ∀ c ∈ t, isSpaceChar c = false) →
      pySplitWsAux [] (joinWith [' '] ts) = ts
  | [], _ => rfl
  | [t], h =>
    pySplitWs_single_word (h t (List.mem_cons_self _ _)).1
      (h t (List.mem_cons_self _ _)).2
  | t :: t2 :: ts, h => by
    have ht := h t (List.mem_cons_self _ _)
    rw [joinWith_cons_cons]
    rw [pySplitWsAux_append_word t ht.2]
    simp only [List.singleton_append, List.append_nil]
    rw [pySplitWsAux_flush _ (by decide) (by simpa using ht.1)]
    rw [joinWith_space_tokens (t2 :: ts) (fun x hx => h x (List.mem_cons_of_mem _ hx))]
    simp

theorem pySplitWsAux_tokens_ok :
    ∀ (s acc : PyStr), (∀ c ∈ acc, isSpaceChar c = false) →
      ∀ t ∈ pySplitWsAux acc s, t ≠ [] ∧ ∀ c ∈ t, isSpaceChar c = false
  | [], acc, hacc, t, ht => by
    rw [pySplitWsAux_nil] at ht
    split at ht
    · exact absurd ht (List.not_mem_nil t)
    · rcases List.mem_singleton.mp ht with rfl
      constructor
      · simp
        assumption
      · intro c hc
        exact hacc c (List.mem_reverse.mp hc)
  | x :: rest, acc, hacc, t, ht => by
    by_cases hx : isSpaceChar x = true
    · by_cases haccn : acc = []
      · subst haccn
        simp only [pySplitWsAux, hx, if_true] at ht
        exact pySplitWsAux_tokens_ok rest [] (by intro c hc; cases hc) t ht
      · rw [pySplitWsAux_flush rest hx haccn] at ht
        rcases List.mem_cons.mp ht with rfl | ht
        · constructor
          · simp [haccn]
          · intro c hc
            exact hacc c (List.mem_reverse.mp hc)
        · exact pySplitWsAux_tokens_ok rest [] (by intro c hc; cases hc) t ht
    · rw [Bool.not_eq_true] at hx
      simp only [pySplitWsAux, hx, Bool.false_eq_true, if_false] at ht
      refine pySplitWsAux_tokens_ok rest (x :: acc) ?_ t ht
      intro c hc
      rcases List.mem_cons.mp hc with rfl | hc
      · exact hx
      · exact hacc c hc

theorem pySplitWs_tokens_ok {s : PyStr} :
    ∀ t ∈ pySplitWs s, t ≠ [] ∧ ∀ c ∈ t, isSpaceChar c = false :=
  pySplitWsAux_tokens_ok s [] (by intro c hc; cases hc)

theorem pySplitWsAux_chars_sub :
    ∀ (s acc : PyStr) (t : PyStr), t ∈ pySplitWsAux acc s →
      ∀ c ∈ t, c ∈ acc ∨ c ∈ s
  | [], acc, t, ht, c, hc => by
    rw [pySplitWsAux_nil] at ht
    split at ht
    · exact absurd ht (List.not_mem_nil t)
    · rcases List.mem_singleton.mp ht with rfl
      exact Or.inl (List.mem_reverse.mp hc)
  | x :: rest, acc, t, ht, c, hc => by
    by_cases hx : isSpaceChar x = true
    · by_cases haccn : acc = []
      · subst haccn
        simp only [pySplitWsAux, hx, if_true] at ht
        rcases pySplitWsAux_chars_sub rest [] t ht c hc with h | h
        · exact absurd h (List.not_mem_nil c)
        · exact Or.inr (List.mem_cons_of_mem _ h)
    -- remaining cases below
      · rw [pySplitWsAux_flush rest hx haccn] at ht
        rcases List.mem_cons.mp ht with rfl | ht
        · exact Or.inl (List.mem_reverse.mp hc)
        · rcases pySplitWsAux_chars_sub rest [] t ht c hc with h | h
          · exact absurd h (List.not_mem_nil c)
          · exact Or.inr (List.mem_cons_of_mem _ h)
    · rw [Bool.not_eq_true] at hx
      simp only [pySplitWsAux, hx, Bool.false_eq_true, if_false] at ht
      rcases pySplitWsAux_chars_sub rest (x :: acc) t ht c hc with h | h
      · rcases List.mem_cons.mp h with rfl | h
        · exact Or.inr (List.mem_cons_self _ _)
        · exact Or.inl h
      · exact Or.inr (List.mem_cons_of_mem _ h)

theorem pySplitWs_chars_sub {s t : PyStr} (ht : t ∈ pySplitWs s) :
    ∀ c ∈ t, c ∈ s := by
  intro c hc
  rcases pySplitWsAux_chars_sub s [] t ht c hc with h | h
  · exact absurd h (List.not_mem_nil c)
  · exact h

/-! splitOnChar lemmas -/

theorem splitOnChar_ne_nil (sep : Char) : ∀ (s : PyStr), splitOnChar sep s ≠ []
  | [] => by simp [splitOnChar]
  | c :: rest => by
    unfold splitOnChar
    split
    · exact List.cons_ne_nil _ _
    · split
      · exact List.cons_ne_nil _ _
      · exact List.cons_ne_nil _ _

theorem splitOnChar_cons_sep {sep a : Char} (rest : PyStr) (ha : a = sep) :
    splitOnChar sep (a :: rest) = [] :: splitOnChar sep rest := by
  conv_lhs => unfold splitOnChar
  rw [if_pos ha]

theorem splitOnChar_cons_ne {sep a : Char} {rest h0 : PyStr} {t0 : List PyStr}
    (ha : ¬ a = sep) (hrest : splitOnChar sep rest = h0 :: t0) :
    splitOnChar sep (a :: rest) = (a :: h0) :: t0 := by
  conv_lhs => unfold splitOnChar
  rw [if_neg ha, hrest]

theorem splitOnChar_sep_free {sep : Char} :
    ∀ (s : PyStr), ∀ x ∈ splitOnChar sep s, ∀ c ∈ x, c ≠ sep
  | [], x, hx, c, hc => by
    rcases List.mem_singleton.mp hx with rfl
    exact absurd hc (List.not_mem_nil c)
  | a :: rest, x, hx, c, hc => by
    by_cases ha : a = sep
    · rw [splitOnChar_cons_sep rest ha] at hx
      rcases List.mem_cons.mp hx with rfl | hx
      · exact absurd hc (List.not_mem_nil c)
      · exact splitOnChar_sep_free rest x hx c hc
    · rcases hhead : splitOnChar sep rest with _ | ⟨h0, t0⟩
      · exact absurd hhead (splitOnChar_ne_nil sep rest)
      · rw [splitOnChar_cons_ne ha hhead] at hx
        rcases List.mem_cons.mp hx with rfl | hx
        · rcases List.mem_cons.mp hc with rfl | hc
          · exact ha
          · exact splitOnChar_sep_free rest h0
              (hhead ▸ List.mem_cons_self h0 t0) c hc
        · exact splitOnChar_sep_free rest x
            (hhead ▸ List.mem_cons_of_mem h0 hx) c hc

theorem splitOnChar_append_free {sep : Char} :
    ∀ (p s : PyStr), (∀ c ∈ p, c ≠ sep) →
      splitOnChar sep (p ++ s) =
        (p ++ (splitOnChar sep s).headD []) :: (splitOnChar sep s).tail
  | [], s, _ => by
    rcases hs : splitOnChar sep s with _ | ⟨h0, t0⟩
    · exact absurd hs (splitOnChar_ne_nil sep s)
    · simp [hs]
  | a :: p2, s, hfree => by
    have ha : a ≠ sep := hfree a (List.mem_cons_self _ _)
    have ih := splitOnChar_append_free p2 s
      (fun c hc => hfree c (List.mem_cons_of_mem _ hc))
    show splitOnChar sep (a :: (p2 ++ s)) = _
    rw [splitOnChar_cons_ne ha ih]
    rfl

theorem splitOnChar_joinWith :
    ∀ (p : PyStr) (ps : List PyStr), (∀ x ∈ p :: ps, ∀ c ∈ x, c ≠ ',') →
      splitOnChar ',' (joinWith [',', ' '] (p :: ps)) =
        p :: ps.map (' ' :: ·)
  | p, [], hfree => by
    have h := splitOnChar_append_free p [] (hfree p (List.mem_cons_self _ _))
    rw [List.append_nil] at h
    rw [show (joinWith [',', ' '] [p] : PyStr) = p from rfl, h]
    simp [splitOnChar]
  | p, p2 :: ps2, hfree => by
    rw [joinWith_cons_cons]
    rw [splitOnChar_append_free p _ (hfree p (List.mem_cons_self _ _))]
    have hih := splitOnChar_joinWith p2 ps2
      (fun x hx => hfree x (List.mem_cons_of_mem _ hx))
    have hsp : splitOnChar ',' (' ' :: joinWith [',', ' '] (p2 :: ps2)) =
        (' ' :: p2) :: (ps2.map (' ' :: ·)) := by
      have := splitOnChar_cons_ne (a := ' ') (by decide) hih
      exact this
    have hrest : splitOnChar ','
        ((([',', ' '] : PyStr) ++ joinWith [',', ' '] (p2 :: ps2))) =
        [] :: ((' ' :: p2) :: (ps2.map (' ' :: ·))) := by
      show splitOnChar ',' (',' :: (' ' :: joinWith [',', ' '] (p2 :: ps2))) = _
      rw [splitOnChar_cons_sep _ rfl, hsp]
    rw [hrest]
    simp

/-! to_uri character lemmas -/

theorem to_uri_cases (fs : FS) (base url : PyStr) :
    to_uri_if_exists fs base url = url ∨
    ∃ p, to_uri_if_exists fs base url = as_uri p := by
  simp only [to_uri_if_exists]
  split
  · exact Or.inl rfl
  · split
    · exact Or.inr ⟨_, rfl⟩
    · split
      · exact Or.inr ⟨_, rfl⟩
      · split
        · split
          · exact Or.inr ⟨_, rfl⟩
          · exact Or.inl rfl
        · exact Or.inl rfl

theorem as_uri_ne_nil (p : PyStr) : as_uri p ≠ [] := by
  simp [as_uri]

theorem as_uri_not_bad {p : PyStr} {c : Char} (hc : c ∈ as_uri p) :
    badChars.contains c = false := by
  unfold as_uri at hc
  simp only [List.mem_cons] at hc
  rcases hc with h | h | h | h | h | h | h | h
  all_goals first
    | (subst h; decide)
    | exact mem_pquote_not_bad h

theorem to_uri_ne_nil {fs : FS} {base url : PyStr} (h : url ≠ []) :
    to_uri_if_exists fs base url ≠ [] := by
  rcases to_uri_cases fs base url with hc | ⟨p, hc⟩
  · rw [hc]
    exact h
  · rw [hc]
    exact as_uri_ne_nil p

theorem to_uri_bad_mem {fs : FS} {base url : PyStr} {c : Char}
    (hc : c ∈ to_uri_if_exists fs base url)
    (hbad : badChars.contains c = true) : c ∈ url := by
  rcases to_uri_cases fs base url with h | ⟨p, h⟩
  · rwa [h] at hc
  · rw [h] at hc
    rw [as_uri_not_bad hc] at hbad
    cases hbad

theorem space_mem_badChars {c : Char} (h : isSpaceChar c = true) :
    badChars.contains c = true := by
  by_contra hb
  rw [Bool.not_eq_true] at hb
  rw [not_space_of_not_bad hb] at h
  cases h

theorem to_uri_ws_free {fs : FS} {base url : PyStr}
    (h : ∀ c ∈ url, isSpaceChar c = false) :
    ∀ c ∈ to_uri_if_exists fs base url, isSpaceChar c = false := by
  intro c hc
  by_contra hs
  rw [Bool.not_eq_false] at hs
  have := to_uri_bad_mem hc (space_mem_badChars hs)
  rw [h c this] at hs
  cases hs

theorem to_uri_comma_free {fs : FS} {base url : PyStr}
    (h : ∀ c ∈ url, c ≠ ',') :
    ∀ c ∈ to_uri_if_exists fs base url, c ≠ ',' := by
  intro c hc
  intro hcomma
  subst hcomma
  exact h _ (to_uri_bad_mem hc (by decide)) rfl

/-! getLastD lemmas -/

theorem getLastD_indep {b : PyStr} (hb : b ≠ []) (d1 d2 : Char) :
    b.getLastD d1 = b.getLastD d2 := by
  cases b with
  | nil => exact absurd rfl hb
  | cons c t => rw [List.getLastD_cons, List.getLastD_cons]

theorem getLastD_append_right {a : PyStr} :
    ∀ {b : PyStr}, b ≠ [] → ∀ d, (a ++ b).getLastD d = b.getLastD d := by
  induction a with
  | nil => intro b _ d; rfl
  | cons x a2 ih =>
    intro b hb d
    show (x :: (a2 ++ b)).getLastD d = _
    rw [List.getLastD_cons, ih hb x, getLastD_indep hb x d]

theorem getLastD_mem : ∀ (l : PyStr) (d : Char), l ≠ [] → l.getLastD d ∈ l
  | [], _, h => absurd rfl h
  | c :: t, d, _ => by
    rw [List.getLastD_cons]
    by_cases ht : t = []
    · subst ht
      simp
    · exact List.mem_cons_of_mem _ (getLastD_mem t c ht)

theorem joinWith_head_ne_nil {t : PyStr} (ht : t ≠ []) (ts : List PyStr) :
    joinWith [' '] (t :: ts) ≠ [] := by
  cases ts with
  | nil => exact ht
  | cons t2 ts2 =>
    rw [joinWith_cons_cons]
    simp [ht]

theorem joinWith_space_last_ok :
    ∀ (ts : List PyStr), (∀ t ∈ ts, t ≠ [] ∧ ∀ c ∈ t, isSpaceChar c = false) →
      ts ≠ [] → isSpaceChar ((joinWith [' '] ts).getLastD 'x') = false
  | [], _, hne => absurd rfl hne
  | [t], h, _ => by
    have ht := h t (List.mem_cons_self _ _)
    show isSpaceChar (t.getLastD 'x') = false
    exact ht.2 _ (getLastD_mem t 'x' ht.1)
  | t :: t2 :: ts, h, _ => by
    have hJ : joinWith [' '] (t2 :: ts) ≠ [] :=
      joinWith_head_ne_nil (h t2 (List.mem_cons_of_mem _ (List.mem_cons_self _ _))).1 ts
    rw [joinWith_cons_cons]
    rw [getLastD_append_right (by simp [hJ]) 'x']
    rw [show (([' '] : PyStr) ++ joinWith [' '] (t2 :: ts)) =
      ' ' :: joinWith [' '] (t2 :: ts) from rfl]
    rw [List.getLastD_cons, getLastD_indep hJ ' ' 'x']
    exact joinWith_space_last_ok (t2 :: ts)
      (fun x hx => h x (List.mem_cons_of_mem _ hx)) (List.cons_ne_nil _ _)

theorem pyStrip_subset {s : PyStr} : ∀ c ∈ pyStrip s, c ∈ s := by
  intro c hc
  unfold pyStrip at hc
  rw [List.mem_reverse] at hc
  have h1 := (List.dropWhile_suffix isSpaceChar).subset hc
  rw [List.mem_reverse] at h1
  exact (List.dropWhile_suffix isSpaceChar).subset h1

/-! C6 assembly -/

theorem headD_mem : ∀ (l : PyStr) (d : Char), l ≠ [] → l.headD d ∈ l
  | [], _, h => absurd rfl h
  | c :: t, d, _ => by
    simp

theorem headD_append_left {a : PyStr} (ha : a ≠ []) (b : PyStr) (d : Char) :
    (a ++ b).headD d = a.headD d := by
  cases a with
  | nil => exact absurd rfl ha
  | cons c t => rfl

theorem joinWith_space_chars :
    ∀ (ts : List PyStr) (c : Char), c ∈ joinWith [' '] ts →
      c = ' ' ∨ ∃ t ∈ ts, c ∈ t
  | [], c, hc => absurd hc (List.not_mem_nil c)
  | [t], c, hc => Or.inr ⟨t, List.mem_cons_self _ _, hc⟩
  | t :: t2 :: ts, c, hc => by
    rw [joinWith_cons_cons] at hc
    rcases List.mem_append.mp hc with h | h
    · exact Or.inr ⟨t, List.mem_cons_self _ _, h⟩
    · rcases List.mem_append.mp h with h2 | h2
      · exact Or.inl (List.mem_singleton.mp h2)
      · rcases joinWith_space_chars (t2 :: ts) c h2 with h3 | ⟨t3, ht3, hc3⟩
        · exact Or.inl h3
        · exact Or.inr ⟨t3, List.mem_cons_of_mem _ ht3, hc3⟩

theorem mem_entriesOf {v e : PyStr} (he : e ∈ entriesOf v) :
    (∃ s, e = pyStrip s) ∧ e ≠ [] ∧ ∀ c ∈ e, c ≠ ',' := by
  unfold entriesOf at he
  rcases List.mem_filter.mp he with ⟨hmem, hne⟩
  rcases List.mem_map.mp hmem with ⟨item, hitem, rfl⟩
  refine ⟨⟨item, rfl⟩, by simpa using hne, ?_⟩
  intro c hc
  exact splitOnChar_sep_free v item hitem c (pyStrip_subset c hc)

theorem entry_tokens {v e : PyStr} (he : e ∈ entriesOf v) :
    pySplitWs e ≠ [] ∧
    (∀ t ∈ pySplitWs e, t ≠ [] ∧ ∀ c ∈ t, isSpaceChar c = false) ∧
    (∀ t ∈ pySplitWs e, ∀ c ∈ t, c ≠ ',') := by
  rcases mem_entriesOf he with ⟨⟨s, hs⟩, hne, hcomma⟩
  subst hs
  refine ⟨pySplitWs_ne_nil_of_stripped hne, pySplitWs_tokens_ok, ?_⟩
  intro t ht c hc
  exact hcomma c (pySplitWs_chars_sub ht c hc)

theorem srcsetItem_eq (fs : FS) (base item : PyStr) :
    srcsetItem fs base item =
      if pyStrip item = [] then none
      else some (pyStrip (to_uri_if_exists fs base ((pySplitWs (pyStrip item)).headD []) ++
        (if joinWith [' '] ((pySplitWs (pyStrip item)).tail) ≠ []
         then ' ' :: joinWith [' '] ((pySplitWs (pyStrip item)).tail) else []))) := by
  simp only [srcsetItem]
  by_cases hx : pyStrip item = []
  · simp [hx]
  · rw [if_neg hx, if_neg hx]
    cases hsp : pySplitWs (pyStrip item) with
    | nil => exact absurd hsp (pySplitWs_ne_nil_of_stripped hx)
    | cons u rt => simp [hsp]

theorem filterMap_strip_form (G : PyStr → PyStr) :
    ∀ (l : List PyStr),
      (l.filterMap (fun item =>
        if pyStrip item = [] then none else some (G (pyStrip item)))) =
      ((l.map pyStrip).filter (· ≠ [])).map G
  | [] => rfl
  | x :: t => by
    rw [List.filterMap_cons, List.map_cons]
    by_cases hx : pyStrip x = []
    · rw [if_pos hx]
      have : (List.filter (fun x => decide (x ≠ [])) (pyStrip x :: (t.map pyStrip))) =
          List.filter (fun x => decide (x ≠ [])) (t.map pyStrip) := by
        rw [List.filter_cons]
        simp [hx]
      rw [show List.filter (· ≠ []) (pyStrip x :: t.map pyStrip) =
        List.filter (· ≠ []) (t.map pyStrip) from this]
      exact filterMap_strip_form G t
    · rw [if_neg hx]
      have : (List.filter (fun y => decide (y ≠ [])) (pyStrip x :: (t.map pyStrip))) =
          pyStrip x :: List.filter (fun y => decide (y ≠ [])) (t.map pyStrip) := by
        rw [List.filter_cons]
        simp [hx]
      rw [show List.filter (· ≠ []) (pyStrip x :: t.map pyStrip) =
        pyStrip x :: List.filter (· ≠ []) (t.map pyStrip) from this]
      rw [List.map_cons, filterMap_strip_form G t]

theorem srcsetNewValue_parts (fs : FS) (base v : PyStr) :
    srcsetNewValue fs base v =
      joinWith [',', ' '] ((entriesOf v).map (fun e =>
        pyStrip (to_uri_if_exists fs base ((pySplitWs e).headD []) ++
          (if joinWith [' '] ((pySplitWs e).tail) ≠ []
           then ' ' :: joinWith [' '] ((pySplitWs e).tail) else [])))) := by
  unfold srcsetNewValue entriesOf
  rw [List.filterMap_congr (fun item _ => srcsetItem_eq fs base item)]
  rw [filterMap_strip_form (fun e =>
    pyStrip (to_uri_if_exists fs base ((pySplitWs e).headD []) ++
      (if joinWith [' '] ((pySplitWs e).tail) ≠ []
       then ' ' :: joinWith [' '] ((pySplitWs e).tail) else [])))]

theorem part_eq_rewrittenEntry (fs : FS) (base : PyStr) {v e : PyStr}
    (he : e ∈ entriesOf v) :
    pyStrip (to_uri_if_exists fs base ((pySplitWs e).headD []) ++
      (if joinWith [' '] ((pySplitWs e).tail) ≠ []
       then ' ' :: joinWith [' '] ((pySplitWs e).tail) else [])) =
      rewrittenEntry fs base e ∧
    rewrittenEntry fs base e ≠ [] ∧
    (∀ c ∈ rewrittenEntry fs base e, c ≠ ',') ∧
    pyStrip (rewrittenEntry fs base e) = rewrittenEntry fs base e ∧
    pySplitWs (rewrittenEntry fs base e) =
      to_uri_if_exists fs base ((pySplitWs e).headD []) :: (pySplitWs e).tail := by
  obtain ⟨hne0, htok, hcomma⟩ := entry_tokens he
  cases hts : pySplitWs e with
  | nil => exact absurd hts hne0
  | cons u rt =>
    have hu : u ∈ pySplitWs e := hts ▸ List.mem_cons_self u rt
    have hufacts := htok u hu
    have hnew_ne : to_uri_if_exists fs base u ≠ [] := to_uri_ne_nil hufacts.1
    have hnew_ws : ∀ c ∈ to_uri_if_exists fs base u, isSpaceChar c = false :=
      to_uri_ws_free hufacts.2
    have hnew_comma : ∀ c ∈ to_uri_if_exists fs base u, c ≠ ',' :=
      to_uri_comma_free (hcomma u hu)
    have htoks2 : ∀ t ∈ (to_uri_if_exists fs base u :: rt),
        t ≠ [] ∧ ∀ c ∈ t, isSpaceChar c = false := by
      intro t ht
      rcases List.mem_cons.mp ht with rfl | ht
      · exact ⟨hnew_ne, hnew_ws⟩
      · exact htok t (hts ▸ List.mem_cons_of_mem u ht)
    have hA : (to_uri_if_exists fs base u ++
        (if joinWith [' '] rt ≠ [] then ' ' :: joinWith [' '] rt else [])) =
        joinWith [' '] (to_uri_if_exists fs base u :: rt) := by
      cases rt with
      | nil => simp [joinWith]
      | cons t2 ts2 =>
        have hJ : joinWith [' '] (t2 :: ts2) ≠ [] :=
          joinWith_head_ne_nil
            (htok t2 (hts ▸ List.mem_cons_of_mem _ (List.mem_cons_self _ _))).1 ts2
        rw [if_pos hJ, joinWith_cons_cons]
        rfl
    have hRE : rewrittenEntry fs base e =
        joinWith [' '] (to_uri_if_exists fs base u :: rt) := by
      unfold rewrittenEntry
      rw [hts]
      rfl
    have hhead : isSpaceChar
        ((joinWith [' '] (to_uri_if_exists fs base u :: rt)).headD 'x') = false := by
      cases rt with
      | nil =>
        exact hnew_ws _ (headD_mem _ 'x' hnew_ne)
      | cons t2 ts2 =>
        rw [joinWith_cons_cons, headD_append_left hnew_ne]
        exact hnew_ws _ (headD_mem _ 'x' hnew_ne)
    have hlast : isSpaceChar
        ((joinWith [' '] (to_uri_if_exists fs base u :: rt)).getLastD 'x') = false :=
      joinWith_space_last_ok _ htoks2 (List.cons_ne_nil _ _)
    have hstrip : pyStrip (joinWith [' '] (to_uri_if_exists fs base u :: rt)) =
        joinWith [' '] (to_uri_if_exists fs base u :: rt) :=
      pyStrip_eq_self_of_ends hhead hlast
    simp only [List.headD_cons, List.tail_cons]
    refine ⟨?_, ?_, ?_, ?_, ?_⟩
    · rw [hA, hRE, hstrip]
    · rw [hRE]
      exact joinWith_head_ne_nil hnew_ne rt
    · rw [hRE]
      intro c hc
      rcases joinWith_space_chars _ c hc with rfl | ⟨t, hct, hcc⟩
      · decide
      · rcases List.mem_cons.mp hct with rfl | hct
        · exact hnew_comma c hcc
        · exact hcomma t (hts ▸ List.mem_cons_of_mem u hct) c hcc
    · rw [hRE, hstrip]
    · rw [hRE]
      unfold pySplitWs
      exact joinWith_space_tokens _ htoks2

theorem entriesOf_joinWith :
    ∀ (parts : List PyStr),
      (∀ x ∈ parts, x ≠ [] ∧ (∀ c ∈ x, c ≠ ',') ∧ pyStrip x = x) →
      entriesOf (joinWith [',', ' '] parts) = parts
  | [], _ => rfl
  | p :: ps, h => by
    unfold entriesOf
    rw [splitOnChar_joinWith p ps (fun x hx c hc => (h x hx).2.1 c hc)]
    rw [List.map_cons]
    have hps : (ps.map (' ' :: ·)).map pyStrip = ps := by
      rw [List.map_map]
      have : ∀ x ∈ ps, (pyStrip ∘ (' ' :: ·)) x = id x := by
        intro x hx
        show pyStrip (' ' :: x) = x
        rw [pyStrip_cons_space (by decide)]
        exact (h x (List.mem_cons_of_mem _ hx)).2.2
      rw [List.map_congr_left this, List.map_id]
    rw [hps, (h p (List.mem_cons_self _ _)).2.2]
    rw [List.filter_eq_self.mpr]
    intro x hx
    rcases List.mem_cons.mp hx with rfl | hx
    · simpa using (h x (List.mem_cons_self _ _)).1
    · simpa using (h x (List.mem_cons_of_mem _ hx)).1

/-- C6: `srcset` rewriting preserves the number of entries, each entry
becomes its `rewrittenEntry` (URL token normalised, descriptor tokens kept
verbatim, rejoined with single spaces), and the rewritten entry splits back
into the normalised URL followed by the original descriptor tokens. -/
theorem srcset_structure_preserved (fs : FS) (base v : PyStr) :
    entriesOf (srcsetNewValue fs base v) =
      (entriesOf v).map (rewrittenEntry fs base) ∧
    (entriesOf (srcsetNewValue fs base v)).length = (entriesOf v).length ∧
    (∀ e ∈ entriesOf v,
      pySplitWs (rewrittenEntry fs base e) =
        to_uri_if_exists fs base ((pySplitWs e).headD []) :: (pySplitWs e).tail) := by
  have hform := srcsetNewValue_parts fs base v
  have hmapeq : (entriesOf v).map (fun e =>
      pyStrip (to_uri_if_exists fs base ((pySplitWs e).headD []) ++
        (if joinWith [' '] ((pySplitWs e).tail) ≠ []
         then ' ' :: joinWith [' '] ((pySplitWs e).tail) else []))) =
      (entriesOf v).map (rewrittenEntry fs base) :=
    List.map_congr_left (fun e he => (part_eq_rewrittenEntry fs base he).1)
  rw [hform, hmapeq]
  have hentries : entriesOf (joinWith [',', ' ']
      ((entriesOf v).map (rewrittenEntry fs base))) =
      (entriesOf v).map (rewrittenEntry fs base) := by
    apply entriesOf_joinWith
    intro x hx
    rcases List.mem_map.mp hx with ⟨e, he, rfl⟩
    have hp := part_eq_rewrittenEntry fs base he
    exact ⟨hp.2.1, hp.2.2.1, hp.2.2.2.1⟩
  refine ⟨hentries, ?_, ?_⟩
  · rw [hentries, List.length_map]
  · intro e he
    exact (part_eq_rewrittenEntry fs base he).2.2.2.2

/-! ## Sanitizer substitutions (C7): occurrence analysis of `str.replace`

`pyReplaceF` decomposes its input into pattern-free chunks joined by the
pattern; the output joins the same chunks with the replacement.  Together
with a border analysis of the pattern against the replacement this shows
the fixed substitutions leave no occurrence of any of the four empty-
attribute substrings. -/

theorem containsSub_iff {s pat : PyStr} : containsSub s pat = true ↔ pat <:+: s := by
  unfold containsSub
  rw [List.any_eq_true]
  constructor
  · rintro ⟨t, ht, hp⟩
    rw [List.mem_tails] at ht
    exact ((List.isPrefixOf_iff_prefix.mp hp).isInfix).trans ht.isInfix
  · intro h
    rcases h with ⟨t, u, htu⟩
    refine ⟨pat ++ u, ?_, ?_⟩
    · rw [List.mem_tails]
      exact ⟨t, by rw [← htu, List.append_assoc]⟩
    · exact List.isPrefixOf_iff_prefix.mpr (List.prefix_append pat u)

theorem prefix_append_split {q a b : List Char} (h : q <+: a ++ b) :
    q <+: a ∨ (a <+: q ∧ (q.drop a.length) <+: b) := by
  rcases List.prefix_or_prefix_of_prefix h (List.prefix_append a b) with h1 | h1
  · exact Or.inl h1
  · right
    refine ⟨h1, ?_⟩
    rcases h1 with ⟨r, hr⟩
    have hdrop : q.drop a.length = r := by
      rw [← hr]
      simp
    rw [hdrop]
    rw [← hr] at h
    exact (List.prefix_append_right_inj a).mp h

theorem infix_append_split {p : List Char} :
    ∀ (a b : List Char), p <:+: (a ++ b) →
      p <:+: a ∨ p <:+: b ∨
        ∃ k, 0 < k ∧ k < p.length ∧ (p.take k) <:+ a ∧ (p.drop k) <+: b
  | [], _, h => Or.inr (Or.inl h)
  | x :: a2, b, h => by
    have h' : p <:+: (x :: (a2 ++ b)) := h
    rcases List.infix_cons_iff.mp h' with hpre | hinf
    · rcases prefix_append_split (a := x :: a2) (b := b) hpre with h1 | ⟨h1, h2⟩
      · exact Or.inl h1.isInfix
      · by_cases hlen : p.length ≤ (x :: a2).length
        · left
          rw [List.IsPrefix.eq_of_length_le h1 hlen]
        · push_neg at hlen
          right
          right
          refine ⟨(x :: a2).length, by simp, hlen, ?_, h2⟩
          rw [← List.prefix_iff_eq_take.mp h1]
    · rcases infix_append_split a2 b hinf with h1 | h1 | ⟨k, hk0, hk1, hk2, hk3⟩
      · exact Or.inl (List.infix_cons_iff.mpr (Or.inr h1))
      · exact Or.inr (Or.inl h1)
      · exact Or.inr (Or.inr ⟨k, hk0, hk1, hk2.trans (List.suffix_cons x a2), hk3⟩)

theorem not_infix_joinWith {p r : List Char}
    (hr : ¬ p <:+: r)
    (h3 : ∀ k, k < p.length → 0 < k → ¬ (p.take k) <:+ r)
    (h4 : ∀ m, m < p.length → 0 < m → ¬ (p.drop m) <+: r)
    (h5 : ¬ r <:+: p) :
    ∀ (cs : List (List Char)), (∀ c ∈ cs, ¬ p <:+: c) → ¬ p <:+: joinWith r cs
  | [], _, h => hr (by rw [List.eq_nil_of_infix_nil h]; exact List.nil_infix)
  | [c], hcs, h => hcs c (List.mem_cons_self _ _) h
  | c :: c2 :: cs2, hcs, h => by
    rw [joinWith_cons_cons] at h
    rcases infix_append_split c _ h with h1 | h1 | ⟨k, hk0, hk1, hk2, hk3⟩
    · exact hcs c (List.mem_cons_self _ _) h1
    · rcases infix_append_split r _ h1 with h2 | h2 | ⟨k, hk0, hk1, hk2, hk3⟩
      · exact hr h2
      · exact not_infix_joinWith hr h3 h4 h5 (c2 :: cs2)
          (fun x hx => hcs x (List.mem_cons_of_mem _ hx)) h2
      · exact h3 k hk1 hk0 hk2
    · rcases prefix_append_split hk3 with h2 | ⟨h2, _⟩
      · exact h4 k hk1 hk0 h2
      · exact h5 (List.infix_iff_prefix_suffix.mpr ⟨p.drop k, h2, List.drop_suffix k p⟩)

theorem pyReplaceF_decomp {pat rep : List Char} (hpat : pat ≠ []) :
    ∀ (fuel : Nat) (s : List Char), s.length ≤ fuel →
      ∃ cs : List (List Char), cs ≠ [] ∧
        (cs.headD []) <+: s ∧
        (∀ c ∈ cs, ¬ pat <:+: c) ∧
        (∀ c ∈ cs, c <:+: s) ∧
        pyReplaceF fuel s pat rep = joinWith rep cs
  | 0, s, hlen => by
    have hs : s = [] := List.eq_nil_of_length_eq_zero (Nat.le_zero.mp hlen)
    subst hs
    refine ⟨[[]], List.cons_ne_nil _ _, by simp, ?_, ?_, rfl⟩
    · intro c hc
      rcases List.mem_singleton.mp hc with rfl
      intro hinf
      exact hpat (List.eq_nil_of_infix_nil hinf)
    · intro c hc
      rcases List.mem_singleton.mp hc with rfl
      exact List.nil_infix
  | fuel + 1, [], _ => by
    refine ⟨[[]], List.cons_ne_nil _ _, by simp, ?_, ?_, rfl⟩
    · intro c hc
      rcases List.mem_singleton.mp hc with rfl
      intro hinf
      exact hpat (List.eq_nil_of_infix_nil hinf)
    · intro c hc
      rcases List.mem_singleton.mp hc with rfl
      exact List.nil_infix
  | fuel + 1, c :: rest, hlen => by
    by_cases hm : pat ≠ [] ∧ pat.isPrefixOf (c :: rest)
    · have hpat1 : 1 ≤ pat.length := by
        cases pat with
        | nil => exact absurd rfl hpat
        | cons _ _ => simp
      have hdrop : ((c :: rest).drop pat.length).length ≤ fuel := by
        rw [List.length_drop]
        simp only [List.length_cons] at hlen ⊢
        omega
      obtain ⟨cs2, hne2, _, hfree2, hinf2, heq2⟩ :=
        pyReplaceF_decomp hpat fuel _ hdrop
      refine ⟨[] :: cs2, List.cons_ne_nil _ _, by simp, ?_, ?_, ?_⟩
      · intro x hx
        rcases List.mem_cons.mp hx with rfl | hx
        · intro hinf
          exact hpat (List.eq_nil_of_infix_nil hinf)
        · exact hfree2 x hx
      · intro x hx
        rcases List.mem_cons.mp hx with rfl | hx
        · exact List.nil_infix
        · exact (hinf2 x hx).trans (List.drop_suffix _ _).isInfix
      · rw [show pyReplaceF (fuel + 1) (c :: rest) pat rep =
            rep ++ pyReplaceF fuel ((c :: rest).drop pat.length) pat rep from by
          simp only [pyReplaceF]
          rw [if_pos hm]]
        rw [heq2]
        cases cs2 with
        | nil => exact absurd rfl hne2
        | cons d ds => rfl
    · obtain ⟨cs2, hne2, hh2, hfree2, hinf2, heq2⟩ :=
        pyReplaceF_decomp hpat fuel rest
          (by simp only [List.length_cons] at hlen; omega)
      cases cs2 with
      | nil => exact absurd rfl hne2
      | cons h2 t2 =>
        simp only [List.headD_cons] at hh2
        have hch2 : (c :: h2) <+: (c :: rest) :=
          List.cons_prefix_iff.mpr ⟨rfl, hh2⟩
        refine ⟨(c :: h2) :: t2, List.cons_ne_nil _ _, by simpa using hch2, ?_, ?_, ?_⟩
        · intro x hx
          rcases List.mem_cons.mp hx with rfl | hx
          · intro hinf
            rcases List.infix_cons_iff.mp hinf with hpre | hinf2'
            · apply hm
              refine ⟨hpat, ?_⟩
              rw [List.isPrefixOf_iff_prefix]
              exact hpre.trans hch2
            · exact hfree2 h2 (List.mem_cons_self _ _) hinf2'
          · exact hfree2 x (List.mem_cons_of_mem _ hx)
        · intro x hx
          rcases List.mem_cons.mp hx with rfl | hx
          · exact hch2.isInfix
          · exact (hinf2 x (List.mem_cons_of_mem _ hx)).trans
              (List.suffix_cons c rest).isInfix
        · rw [show pyReplaceF (fuel + 1) (c :: rest) pat rep =
              c :: pyReplaceF fuel rest pat rep from by
            simp only [pyReplaceF]
            rw [if_neg hm]]
          rw [heq2]
          cases t2 with
          | nil => rfl
          | cons e es => rfl

theorem pyReplace_not_infix {p pat rep : List Char} (X : List Char) (hpat : pat ≠ [])
    (hbase : p = pat ∨ ¬ p <:+: X)
    (hr : ¬ p <:+: rep)
    (h3 : ∀ k, k < p.length → 0 < k → ¬ (p.take k) <:+ rep)
    (h4 : ∀ m, m < p.length → 0 < m → ¬ (p.drop m) <+: rep)
    (h5 : ¬ rep <:+: p) :
    ¬ p <:+: pyReplace X pat rep := by
  obtain ⟨cs, hne, _, hfree, hinf, heq⟩ :=
    pyReplaceF_decomp hpat X.length X (Nat.le_refl _)
  unfold pyReplace
  rw [heq]
  apply not_infix_joinWith hr h3 h4 h5 cs
  intro c hc
  rcases hbase with rfl | hX
  · exact hfree c hc
  · intro hpc
    exact hX (hpc.trans (hinf c hc))

theorem step_preserves {p pat rep : List Char} (X : List Char) (hpat : pat ≠ [])
    (hbase : p = pat ∨ ¬ p <:+: X)
    (hb : (¬ p <:+: rep) ∧ (∀ k, k < p.length → 0 < k → ¬ (p.take k) <:+ rep) ∧
      (∀ m, m < p.length → 0 < m → ¬ (p.drop m) <+: rep) ∧ ¬ rep <:+: p) :
    ¬ p <:+: pyReplace X pat rep :=
  pyReplace_not_infix X hpat hbase hb.1 hb.2.1 hb.2.2.1 hb.2.2.2

/-- C7 as stated is false: the srcset rewriting stage of the Sanitizer can
reintroduce `src=""`.  On `href="" srcset="x src= ""` the fixed
substitutions fix the `href`, but rewriting the srcset value strips the
trailing space of the value `x src= `, and the closing quote is
immediately followed by another double quote, so the written-back text
contains `src=""` although the input did not. -/
theorem sanitizer_empty_attr_cex :
    containsSub cexSanInput hrefDQ = true ∧
    containsSub cexSanInput srcDQ = false ∧
    containsSub (sanitize_text true true (fun _ => true) true ⟨[]⟩ cexBase
      cexSanInput []).html srcDQ = true := by
  refine ⟨by decide, by decide, by decide⟩

/-- C7 amended: the fixed substitutions remove every occurrence of the
four empty-attribute substrings — after that stage none of `href=""`,
`href=''`, `src=""`, `src=''` occurs in the text; the full Sanitizer can
however reintroduce one through srcset rewriting. -/
theorem fixed_substitutions_remove_empty_attrs (html : PyStr) :
    containsSub (fixedSubstitutions html) hrefDQ = false ∧
    containsSub (fixedSubstitutions html) hrefSQ = false ∧
    containsSub (fixedSubstitutions html) srcDQ = false ∧
    containsSub (fixedSubstitutions html) srcSQ = false := by
  unfold fixedSubstitutions
  set t1 := pyReplace html hrefDQ hrefDQfix
  set t2 := pyReplace t1 hrefSQ hrefSQfix
  set t3 := pyReplace t2 srcDQ srcDQfix
  set t4 := pyReplace t3 srcSQ srcSQfix
  have n1a : ¬ hrefDQ <:+: t1 := step_preserves html (by decide) (Or.inl rfl) (by decide)
  have n1b : ¬ hrefDQ <:+: t2 := step_preserves t1 (by decide) (Or.inr n1a) (by decide)
  have n1c : ¬ hrefDQ <:+: t3 := step_preserves t2 (by decide) (Or.inr n1b) (by decide)
  have n1d : ¬ hrefDQ <:+: t4 := step_preserves t3 (by decide) (Or.inr n1c) (by decide)
  have n1e : ¬ hrefDQ <:+: pyReplace t4 "about:blank".data ['#'] :=
    step_preserves t4 (by decide) (Or.inr n1d) (by decide)
  have n2a : ¬ hrefSQ <:+: t2 := step_preserves t1 (by decide) (Or.inl rfl) (by decide)
  have n2b : ¬ hrefSQ <:+: t3 := step_preserves t2 (by decide) (Or.inr n2a) (by decide)
  have n2c : ¬ hrefSQ <:+: t4 := step_preserves t3 (by decide) (Or.inr n2b) (by decide)
  have n2d : ¬ hrefSQ <:+: pyReplace t4 "about:blank".data ['#'] :=
    step_preserves t4 (by decide) (Or.inr n2c) (by decide)
  have n3a : ¬ srcDQ <:+: t3 := step_preserves t2 (by decide) (Or.inl rfl) (by decide)
  have n3b : ¬ srcDQ <:+: t4 := step_preserves t3 (by decide) (Or.inr n3a) (by decide)
  have n3c : ¬ srcDQ <:+: pyReplace t4 "about:blank".data ['#'] :=
    step_preserves t4 (by decide) (Or.inr n3b) (by decide)
  have n4a : ¬ srcSQ <:+: t4 := step_preserves t3 (by decide) (Or.inl rfl) (by decide)
  have n4b : ¬ srcSQ <:+: pyReplace t4 "about:blank".data ['#'] :=
    step_preserves t4 (by decide) (Or.inr n4a) (by decide)
  refine ⟨?_, ?_, ?_, ?_⟩ <;> rw [Bool.eq_false_iff]
  · intro hcon
    exact n1e (containsSub_iff.mp hcon)
  · intro hcon
    exact n2d (containsSub_iff.mp hcon)
  · intro hcon
    exact n3c (containsSub_iff.mp hcon)
  · intro hcon
    exact n4b (containsSub_iff.mp hcon)

/-- Witness for C10: `file:///a/x.webp` and `file:///b/x.webp` with both
files present. -/
theorem webp_same_stem_single_transcode_witness :
    (processWebpUri (fun _ => true) "/h/.tmp".data
        (processWebpList (fun _ => true) "/h/.tmp".data
          ⟨⟨["a/x.webp".data, "b/x.webp".data]⟩, [], [], [], []⟩ []) "file:///a/x.webp".data).rewrites =
      (processWebpList (fun _ => true) "/h/.tmp".data
        ⟨⟨["a/x.webp".data, "b/x.webp".data]⟩, [], [], [], []⟩ []).rewrites ++
        [("file:///a/x.webp".data, as_uri (resolvePath
          ("/h/.tmp".data ++ '/' :: (pathStem (uriToPath "file:///a/x.webp".data) ++ ".png".data))))] :=
  (webp_same_stem_single_transcode (fun _ => true) "/h/.tmp".data
    ⟨⟨["a/x.webp".data, "b/x.webp".data]⟩, [], [], [], []⟩ [] []
    "file:///a/x.webp".data "file:///b/x.webp".data
    (by decide) (by decide) (by decide) (by decide) (by decide)).1

end ConvertMD
